import Mathlib

/-!
Verification of the per-cell FVM integrator of the nest::mc prototype
(`fvm_cell` in `fvm_cell.hpp`, referred to below as the source header).

The development shallowly embeds the parts of the source the claims are
about:

* the segment validation performed by the `fvm_cell` constructor;
* the ion-species construction (index unions, default values, map layout);
* the state of the integrator (`FvmCell`) together with `setup_matrix`,
  `advance`, `advance_to` and the event queue;
* the Hines solve, which lives in `matrix.hpp` (not part of the sources
  available here) and is therefore modelled from the specification.

Real values are embedded as rationals so that all step functions are
executable; ion default values, which involve a natural logarithm, are
embedded over the reals.
-/

namespace ArborFvm

set_option linter.unusedSectionVars false

/-! ## Segment validation (constructor, source lines 222-274)

The constructor walks `cell.segments()`; a soma at a non-zero segment
index and a segment that is neither soma nor cable raise
`std::domain_error`. Only the segment kind matters for that control
flow, so segments are embedded by their kind. -/

inductive SegKind where
| soma : SegKind
| cable : SegKind
| other : SegKind
deriving DecidableEq, Repr

inductive SegError where
| somaNonZero : SegError
| unsupportedSegment : SegError
deriving DecidableEq, Repr

/-- Walk of the segment list of the constructor, carrying `seg_idx`.
Mirrors the loop at source lines 222-274: a soma at index different
from zero is an error, a cable is accepted, anything else is an error. -/
def checkSegmentsFrom : List SegKind → ℕ → Except SegError Unit
| [], _ => Except.ok ()
| SegKind.soma :: rest, idx =>
    if idx ≠ 0 then Except.error SegError.somaNonZero
    else checkSegmentsFrom rest (idx + 1)
| SegKind.cable :: rest, idx => checkSegmentsFrom rest (idx + 1)
| SegKind.other :: _, _ => Except.error SegError.unsupportedSegment

/-- The segment validation of the constructor, starting at `seg_idx = 0`. -/
def fvm_check_segments (segs : List SegKind) : Except SegError Unit :=
  checkSegmentsFrom segs 0

/-- Whether an `Except` computation succeeded. -/
def okB {ε α : Type _} : Except ε α → Bool
| Except.ok _ => true
| Except.error _ => false

theorem okB_ok {ε α : Type _} {x : α} : okB (ε := ε) (Except.ok x) = true := rfl

theorem okB_error {ε α : Type _} {e : ε} : okB (α := α) (Except.error e) = false := rfl

/-- Success of the walk from index `idx` is equivalent to: every soma sits
at absolute index `0` and no segment has an unsupported kind. -/
theorem checkSegmentsFrom_ok_iff (segs : List SegKind) (idx : ℕ) :
    okB (checkSegmentsFrom segs idx) = true ↔
      ∀ i sk, segs[i]? = some sk →
        (sk = SegKind.soma → idx + i = 0) ∧ sk ≠ SegKind.other := by
  induction segs generalizing idx with
  | nil =>
      simp [checkSegmentsFrom, okB]
  | cons s rest ih =>
      cases s with
      | soma =>
          by_cases h0 : idx = 0
          · subst h0
            simp only [checkSegmentsFrom, ne_eq, not_true_eq_false, if_false,
              Nat.zero_add]
            rw [ih 1]
            constructor
            · intro h i sk hget
              cases i with
              | zero =>
                  simp only [List.getElem?_cons_zero, Option.some.injEq] at hget
                  subst hget
                  exact ⟨fun _ => rfl, by simp⟩
              | succ j =>
                  simp only [List.getElem?_cons_succ] at hget
                  have := h j sk hget
                  refine ⟨fun hs => ?_, this.2⟩
                  have := this.1 hs
                  omega
            · intro h i sk hget
              have := h (i + 1) sk (by simpa using hget)
              refine ⟨fun hs => ?_, this.2⟩
              have := this.1 hs
              omega
          · simp only [checkSegmentsFrom, if_pos h0, okB]
            constructor
            · intro h; cases h
            · intro h
              have := (h 0 SegKind.soma (by simp)).1 rfl
              omega
      | cable =>
          simp only [checkSegmentsFrom]
          rw [ih (idx + 1)]
          constructor
          · intro h i sk hget
            cases i with
            | zero =>
                simp only [List.getElem?_cons_zero, Option.some.injEq] at hget
                subst hget
                exact ⟨by simp, by simp⟩
            | succ j =>
                simp only [List.getElem?_cons_succ] at hget
                have := h j sk hget
                refine ⟨fun hs => ?_, this.2⟩
                have := this.1 hs
                omega
          · intro h i sk hget
            have := h (i + 1) sk (by simpa using hget)
            refine ⟨fun hs => ?_, this.2⟩
            have := this.1 hs
            omega
      | other =>
          simp only [checkSegmentsFrom, okB]
          constructor
          · intro h; cases h
          · intro h
            have := (h 0 SegKind.other (by simp)).2
            exact absurd rfl this

/-- C5: construction of the integrator from a cell fails with a morphology
error if and only if a soma segment appears at a non-zero segment index or
some segment is neither a soma nor a cable; every well-formed cell (soma
first, all remaining segments cables) passes the validation. -/
theorem C5_morphology_error_iff (segs : List SegKind) :
    (okB (fvm_check_segments segs) = true ↔
      ∀ i sk, segs[i]? = some sk →
        (sk = SegKind.soma → i = 0) ∧ sk ≠ SegKind.other)
    ∧ ((segs.head? = some SegKind.soma ∧
          ∀ sk ∈ segs.tail, sk = SegKind.cable) →
        okB (fvm_check_segments segs) = true) := by
  have base := checkSegmentsFrom_ok_iff segs 0
  simp only [Nat.zero_add] at base
  rw [show fvm_check_segments segs = checkSegmentsFrom segs 0 from rfl]
  constructor
  · exact base
  · rintro ⟨hhead, htail⟩
    rw [base]
    intro i sk hget
    cases i with
    | zero =>
        cases segs with
        | nil => simp at hget
        | cons s rest =>
            simp only [List.head?_cons, Option.some.injEq] at hhead
            simp only [List.getElem?_cons_zero, Option.some.injEq] at hget
            subst hget; subst hhead
            exact ⟨fun _ => rfl, by simp⟩
    | succ j =>
        cases segs with
        | nil => simp at hget
        | cons s rest =>
            simp only [List.getElem?_cons_succ] at hget
            have hsk : sk ∈ rest := List.getElem?_mem hget
            have := htail sk hsk
            subst this
            refine ⟨fun h => ?_, by simp⟩
            cases h

/-- Witness for C5: a cell made of a soma followed by a cable passes the
segment validation of the constructor. -/
theorem C5_morphology_error_iff_witness :
    (([SegKind.soma, SegKind.cable].head? = some SegKind.soma ∧
        ∀ sk ∈ [SegKind.soma, SegKind.cable].tail, sk = SegKind.cable) ∧
      okB (fvm_check_segments [SegKind.soma, SegKind.cable]) = true) := by
  refine ⟨⟨rfl, by decide⟩, ?_⟩
  exact (C5_morphology_error_iff [SegKind.soma, SegKind.cable]).2 ⟨rfl, by decide⟩

/-! ## Ion species construction (constructor, source lines 338-383)

The constructor builds, for each ion kind, the set of compartment indexes
of the mechanisms that use the ion (a `std::set<int>`, hence sorted and
duplicate free), emplaces an ion state over that index list when it is
non-empty, joins every using mechanism to the map entry through
`set_ion(ion, ions_[ion])`, and finally assigns the hard-coded default
values through `ion_na()`, `ion_k()`, `ion_ca()`, each of which is
`ions_[kind]` and hence default-constructs a missing entry. -/

inductive IonKind where
| na : IonKind
| ca : IonKind
| k : IonKind
deriving DecidableEq, Repr

/-- Modelled from the spec: `ion.hpp` with the `ion_kinds()` enumeration is
not part of the available sources; the spec (§3, §4.4) lists the kinds Na,
K, Ca. The enumeration order does not matter to any claim. -/
def ion_kinds : List IonKind := [IonKind.na, IonKind.ca, IonKind.k]

/-- Modelled from the spec: `ion.hpp` is not part of the available sources.
Per the spec (§4.4) an ion state owns a sorted CV index list and vectors
`Xi`, `Xo`, `E` over that list; a default-constructed ion has the empty
index set. Entries are zero before the constructor assigns defaults. -/
structure IonState (R : Type) where
  node_index : List ℕ
  reversal_potential : List R
  internal_concentration : List R
  external_concentration : List R

variable {R : Type} [Field R]

/-- Ion state allocated over a given index list (`ion(index_type)`). -/
def mkIonState (idx : List ℕ) : IonState R :=
  ⟨idx, idx.map (fun _ => 0), idx.map (fun _ => 0), idx.map (fun _ => 0)⟩

/-- A default-constructed ion state (`ions_[kind]` on a missing key). -/
def defaultIonState : IonState R := ⟨[], [], [], []⟩

theorem mkIonState_nil : mkIonState [] = (defaultIonState : IonState R) := rfl

/-- The part of a mechanism instance the ion construction reads and
writes: the `uses_ion` predicate, the `node_index` list and the binding
recorded by `set_ion`. -/
structure MechIonInfo (R : Type) where
  uses_ion : IonKind → Bool
  node_index : List ℕ
  ion_binding : IonKind → Option (IonState R)

/-- Ordered insertion without duplicates: one `std::set<int>::insert`. -/
def setInsert (x : ℕ) : List ℕ → List ℕ
| [] => [x]
| y :: ys =>
    if x < y then x :: y :: ys
    else if x = y then y :: ys
    else y :: setInsert x ys

/-- The sorted union of the node indexes of the mechanisms using `ion`
(the `index_set` of source lines 341-349). -/
def indexSetOf (mechs : List (MechIonInfo R)) (ion : IonKind) : List ℕ :=
  mechs.foldl
    (fun acc m =>
      if m.uses_ion ion then m.node_index.foldl (fun a i => setInsert i a) acc
      else acc)
    []

theorem mem_setInsert (z x : ℕ) (l : List ℕ) :
    z ∈ setInsert x l ↔ z = x ∨ z ∈ l := by
  induction l with
  | nil => simp [setInsert]
  | cons y ys ih =>
      by_cases h1 : x < y
      · simp [setInsert, h1]
      · by_cases h2 : x = y
        · subst h2
          simp only [setInsert, if_neg h1, if_pos rfl]
          constructor
          · intro h; exact Or.inr h
          · intro h
            cases h with
            | inl h => subst h; exact List.mem_cons_self _ _
            | inr h => exact h
        · simp only [setInsert, if_neg h1, if_neg h2, List.mem_cons, ih]
          tauto

theorem sorted_setInsert (x : ℕ) (l : List ℕ)
    (h : List.Sorted (· < ·) l) : List.Sorted (· < ·) (setInsert x l) := by
  induction l with
  | nil => simp [setInsert]
  | cons y ys ih =>
      have hy : ∀ b ∈ ys, y < b := fun b hb => (List.sorted_cons.mp h).1 b hb
      have hys : List.Sorted (· < ·) ys := (List.sorted_cons.mp h).2
      by_cases h1 : x < y
      · simp only [setInsert, if_pos h1]
        exact List.sorted_cons.mpr
          ⟨fun b hb => by
            rcases List.mem_cons.mp hb with hb | hb
            · exact hb ▸ h1
            · exact lt_trans h1 (hy b hb), h⟩
      · by_cases h2 : x = y
        · simpa [setInsert, if_neg h1, if_pos h2] using h
        · have hyx : y < x := by omega
          simp only [setInsert, if_neg h1, if_neg h2]
          refine List.sorted_cons.mpr ⟨fun b hb => ?_, ih hys⟩
          rcases (mem_setInsert b x ys).mp hb with hb | hb
          · exact hb ▸ hyx
          · exact hy b hb

theorem mem_foldl_setInsert (z : ℕ) (l : List ℕ) (acc : List ℕ) :
    z ∈ l.foldl (fun a i => setInsert i a) acc ↔ z ∈ l ∨ z ∈ acc := by
  induction l generalizing acc with
  | nil => simp
  | cons i is ih =>
      simp only [List.foldl_cons, ih, mem_setInsert, List.mem_cons]
      tauto

theorem sorted_foldl_setInsert (l : List ℕ) (acc : List ℕ)
    (h : List.Sorted (· < ·) acc) :
    List.Sorted (· < ·) (l.foldl (fun a i => setInsert i a) acc) := by
  induction l generalizing acc with
  | nil => exact h
  | cons i is ih => exact ih _ (sorted_setInsert i acc h)

theorem mem_indexSetOf (z : ℕ) (mechs : List (MechIonInfo R)) (ion : IonKind) :
    z ∈ indexSetOf mechs ion ↔
      ∃ m ∈ mechs, m.uses_ion ion = true ∧ z ∈ m.node_index := by
  have general : ∀ (ms : List (MechIonInfo R)) (acc : List ℕ),
      z ∈ ms.foldl
          (fun acc m =>
            if m.uses_ion ion then
              m.node_index.foldl (fun a i => setInsert i a) acc
            else acc) acc ↔
        (∃ m ∈ ms, m.uses_ion ion = true ∧ z ∈ m.node_index) ∨ z ∈ acc := by
    intro ms
    induction ms with
    | nil => simp
    | cons m rest ih =>
        intro acc
        by_cases hu : m.uses_ion ion
        · simp only [List.foldl_cons, if_pos hu, ih, mem_foldl_setInsert,
            List.mem_cons]
          constructor
          · rintro (⟨m', hm', h⟩ | hz | hz)
            · exact Or.inl ⟨m', Or.inr hm', h⟩
            · exact Or.inl ⟨m, Or.inl rfl, hu, hz⟩
            · exact Or.inr hz
          · rintro (⟨m', hm' | hm', h⟩ | hz)
            · subst hm'; exact Or.inr (Or.inl h.2)
            · exact Or.inl ⟨m', hm', h⟩
            · exact Or.inr (Or.inr hz)
        · simp only [List.foldl_cons, if_neg hu, ih, List.mem_cons]
          constructor
          · rintro (⟨m', hm', h⟩ | hz)
            · exact Or.inl ⟨m', Or.inr hm', h⟩
            · exact Or.inr hz
          · rintro (⟨m', hm' | hm', h⟩ | hz)
            · subst hm'; exact absurd h.1 (by simpa using hu)
            · exact Or.inl ⟨m', hm', h⟩
            · exact Or.inr hz
  simpa using general mechs []

theorem sorted_indexSetOf (mechs : List (MechIonInfo R)) (ion : IonKind) :
    List.Sorted (· < ·) (indexSetOf mechs ion) := by
  have general : ∀ (ms : List (MechIonInfo R)) (acc : List ℕ),
      List.Sorted (· < ·) acc →
      List.Sorted (· < ·)
        (ms.foldl
          (fun acc m =>
            if m.uses_ion ion then
              m.node_index.foldl (fun a i => setInsert i a) acc
            else acc) acc) := by
    intro ms
    induction ms with
    | nil => exact fun acc h => h
    | cons m rest ih =>
        intro acc hacc
        by_cases hu : m.uses_ion ion
        · simp only [List.foldl_cons, if_pos hu]
          exact ih _ (sorted_foldl_setInsert _ _ hacc)
        · simp only [List.foldl_cons, if_neg hu]
          exact ih _ hacc
  exact general mechs [] (by simp)

theorem nodup_indexSetOf (mechs : List (MechIonInfo R)) (ion : IonKind) :
    (indexSetOf mechs ion).Nodup :=
  (sorted_indexSetOf mechs ion).nodup

/-! ### The ion map (`std::map<ionKind, ion_type> ions_`) -/

/-- Association-list model of `ions_`. Keys are unique by construction. -/
abbrev IonMap (R : Type) : Type := List (IonKind × IonState R)

/-- `ions_.find(kind)` as a value lookup. -/
def mapFind (m : IonMap R) (kind : IonKind) : Option (IonState R) :=
  match m with
  | [] => none
  | p :: rest => if p.1 = kind then some p.2 else mapFind rest kind

/-- `ions_.emplace(kind, v)`: inserts only when the key is absent. -/
def mapEmplace (m : IonMap R) (kind : IonKind) (v : IonState R) : IonMap R :=
  match mapFind m kind with
  | some _ => m
  | none => m ++ [(kind, v)]

/-- `ions_[kind]`: default-constructs a missing entry, returns the entry
value together with the possibly extended map. -/
def mapBracket (m : IonMap R) (kind : IonKind) : IonState R × IonMap R :=
  match mapFind m kind with
  | some v => (v, m)
  | none => (defaultIonState, m ++ [(kind, defaultIonState)])

/-- Assignment through the reference returned by `ions_[kind]`. -/
def mapAssign (m : IonMap R) (kind : IonKind) (v : IonState R) : IonMap R :=
  m.map (fun p => if p.1 = kind then (p.1, v) else p)

theorem mapFind_append_single_self (m : IonMap R) (kind : IonKind)
    (v : IonState R) (h : mapFind m kind = none) :
    mapFind (m ++ [(kind, v)]) kind = some v := by
  induction m with
  | nil => simp [mapFind]
  | cons p rest ih =>
      by_cases hp : p.1 = kind
      · simp [mapFind, hp] at h
      · simp only [List.cons_append, mapFind, if_neg hp] at h ⊢
        exact ih h

theorem mapFind_append_single_other (m : IonMap R) (kind kind' : IonKind)
    (v : IonState R) (h : kind ≠ kind') :
    mapFind (m ++ [(kind, v)]) kind' = mapFind m kind' := by
  induction m with
  | nil => simp [mapFind, h]
  | cons p rest ih =>
      by_cases hp : p.1 = kind'
      · simp [mapFind, hp]
      · simp only [List.cons_append, mapFind, hp, if_false]
        exact ih

theorem mapFind_mapAssign_self (m : IonMap R) (kind : IonKind) (v : IonState R) :
    mapFind (mapAssign m kind v) kind =
      (mapFind m kind).map (fun _ => v) := by
  induction m with
  | nil => simp [mapFind, mapAssign]
  | cons p rest ih =>
      by_cases hp : p.1 = kind
      · simp [mapFind, mapAssign, hp]
      · simp only [mapAssign, List.map_cons, if_neg hp, mapFind, hp, if_false]
        exact ih

theorem mapFind_mapAssign_other (m : IonMap R) (kind kind' : IonKind)
    (v : IonState R) (h : kind ≠ kind') :
    mapFind (mapAssign m kind v) kind' = mapFind m kind' := by
  induction m with
  | nil => simp [mapFind, mapAssign]
  | cons p rest ih =>
      by_cases hp : p.1 = kind
      · have hp' : ¬ (p.1 = kind') := by
          rw [hp]; exact h
        simp only [mapAssign, List.map_cons, if_pos hp, mapFind, h, if_false,
          hp', ite_false]
        exact ih
      · by_cases hq : p.1 = kind'
        · have hk : ¬ (kind' = kind) := fun hh => h hh.symm
          simp [mapAssign, mapFind, hq, hk]
        · simp only [mapAssign, List.map_cons, if_neg hp, mapFind, hq,
            if_false, ite_false]
          exact ih

theorem mapBracket_fst (m : IonMap R) (kind : IonKind) :
    (mapBracket m kind).1 = (mapFind m kind).getD defaultIonState := by
  unfold mapBracket
  cases h : mapFind m kind <;> simp [h]

theorem mapFind_mapBracket_self (m : IonMap R) (kind : IonKind) :
    mapFind (mapBracket m kind).2 kind = some ((mapBracket m kind).1) := by
  unfold mapBracket
  cases h : mapFind m kind with
  | none => simpa using mapFind_append_single_self m kind defaultIonState h
  | some v => exact h

theorem mapFind_mapBracket_other (m : IonMap R) (kind kind' : IonKind)
    (h : kind ≠ kind') :
    mapFind (mapBracket m kind).2 kind' = mapFind m kind' := by
  unfold mapBracket
  cases hf : mapFind m kind with
  | none => simpa using mapFind_append_single_other m kind kind' _ h
  | some v => simp

theorem mapFind_mapEmplace_absent (m : IonMap R) (kind : IonKind)
    (v : IonState R) (h : mapFind m kind = none) :
    mapFind (mapEmplace m kind v) kind = some v := by
  unfold mapEmplace
  rw [h]
  exact mapFind_append_single_self m kind v h

theorem mapFind_mapEmplace_other (m : IonMap R) (kind kind' : IonKind)
    (v : IonState R) (h : kind ≠ kind') :
    mapFind (mapEmplace m kind v) kind' = mapFind m kind' := by
  unfold mapEmplace
  cases hf : mapFind m kind with
  | none => exact mapFind_append_single_other m kind kind' v h
  | some w => rfl

/-! ### The per-ion loop of the constructor (source lines 338-362) -/

/-- Record the `set_ion(ion, st)` call on one mechanism. -/
def bindIon (mech : MechIonInfo R) (ion : IonKind) (st : IonState R) :
    MechIonInfo R :=
  { mech with
    ion_binding := fun kk => if kk = ion then some st else mech.ion_binding kk }

/-- Body of `for(auto ion : mechanisms::ion_kinds())`: build the index
union, emplace the ion state when the union is non-empty, then join every
using mechanism to `ions_[ion]` (which default-constructs when absent). -/
def buildIonsStep (acc : IonMap R × List (MechIonInfo R)) (ion : IonKind) :
    IonMap R × List (MechIonInfo R) :=
  let indexes := indexSetOf acc.2 ion
  let m1 := if indexes ≠ [] then mapEmplace acc.1 ion (mkIonState indexes)
            else acc.1
  acc.2.foldl
    (fun st mech =>
      if mech.uses_ion ion then
        let bv := mapBracket st.1 ion
        (bv.2, st.2 ++ [bindIon mech ion bv.1])
      else (st.1, st.2 ++ [mech]))
    (m1, ([] : List (MechIonInfo R)))

/-- The ion-construction loop over all ion kinds. -/
def buildIons (mechs : List (MechIonInfo R)) :
    IonMap R × List (MechIonInfo R) :=
  ion_kinds.foldl buildIonsStep (([] : IonMap R), mechs)

/-! ### Default ion values (source lines 369-383) -/

/-- Assignment of one value to a whole vector view (`v(all) = x`). -/
def assignAllR (v : List R) (x : R) : List R := v.map (fun _ => x)

theorem assignAllR_eq_replicate (v : List R) (x : R) :
    assignAllR v x = List.replicate v.length x := by
  induction v with
  | nil => rfl
  | cons a l ih =>
      simp only [assignAllR, List.map_cons, List.length_cons,
        List.replicate_succ, List.cons.injEq, true_and]
      simp [assignAllR, ih]

/-- `DEF_vrest` of the constructor (-65 mV). -/
def DEF_vrest : R := -65

/-- The hard-coded default values for one ion kind, applied to one ion
state: reversal potential, internal and external concentration, each set
at every index (source lines 373-383). The natural logarithm used for the
calcium reversal potential is passed in as `lg`; decimal literals of the
source appear as the equal rational constants. -/
def applyIonDefaults (lg : R → R) (kind : IonKind) (st : IonState R) :
    IonState R :=
  match kind with
  | IonKind.na =>
      { st with
        reversal_potential := assignAllR st.reversal_potential (115 + DEF_vrest),
        internal_concentration := assignAllR st.internal_concentration 10,
        external_concentration := assignAllR st.external_concentration 140 }
  | IonKind.k =>
      { st with
        reversal_potential := assignAllR st.reversal_potential (-12 + DEF_vrest),
        internal_concentration := assignAllR st.internal_concentration (272 / 5),
        external_concentration := assignAllR st.external_concentration (5 / 2) }
  | IonKind.ca =>
      { st with
        reversal_potential :=
          assignAllR st.reversal_potential ((25 / 2) * lg (2 / (1 / 20000))),
        internal_concentration := assignAllR st.internal_concentration (1 / 20000),
        external_concentration := assignAllR st.external_concentration 2 }

/-- One default-assignment block: access the ion through `ions_[kind]`
(default-constructing a missing entry) and assign the default values
through the returned reference. -/
def defaultsStage (lg : R → R) (kind : IonKind) (m : IonMap R) : IonMap R :=
  let b := mapBracket m kind
  mapAssign b.2 kind (applyIonDefaults lg kind b.1)

/-- The three default-assignment blocks, in source order na, k, ca. -/
def setIonDefaults (lg : R → R) (m : IonMap R) : IonMap R :=
  defaultsStage lg IonKind.ca
    (defaultsStage lg IonKind.k
      (defaultsStage lg IonKind.na m))

/-- The full ion phase of the constructor: build, bind, assign defaults. -/
def fvm_build_ion_state (lg : R → R) (mechs : List (MechIonInfo R)) :
    IonMap R × List (MechIonInfo R) :=
  let bi := buildIons mechs
  (setIonDefaults lg bi.1, bi.2)

/-- Value of the ion map at a kind, with the default for a missing key. -/
def ionAt (m : IonMap R) (kind : IonKind) : IonState R :=
  (mapFind m kind).getD defaultIonState

/-! ### Characterization of the ion phase -/

theorem bindIon_uses (mech : MechIonInfo R) (ion : IonKind) (st : IonState R) :
    (bindIon mech ion st).uses_ion = mech.uses_ion := rfl

theorem bindIon_node (mech : MechIonInfo R) (ion : IonKind) (st : IonState R) :
    (bindIon mech ion st).node_index = mech.node_index := rfl

theorem bindIon_binding_self (mech : MechIonInfo R) (ion : IonKind)
    (st : IonState R) : (bindIon mech ion st).ion_binding ion = some st := by
  simp [bindIon]

theorem bindIon_binding_other (mech : MechIonInfo R) (ion ion' : IonKind)
    (st : IonState R) (h : ion' ≠ ion) :
    (bindIon mech ion st).ion_binding ion' = mech.ion_binding ion' := by
  simp [bindIon, h]

/-- The `set_ion` loop when the map already holds an entry for the ion:
the map is unchanged and every using mechanism is bound to that entry. -/
theorem setIonLoop_present (ion : IonKind) (v : IonState R) :
    ∀ (ms : List (MechIonInfo R)) (m1 : IonMap R)
      (done : List (MechIonInfo R)),
      mapFind m1 ion = some v →
      (ms.foldl
        (fun st mech =>
          if mech.uses_ion ion then
            let bv := mapBracket st.1 ion
            (bv.2, st.2 ++ [bindIon mech ion bv.1])
          else (st.1, st.2 ++ [mech]))
        (m1, done))
      = (m1, done ++ ms.map (fun mech =>
          if mech.uses_ion ion then bindIon mech ion v else mech)) := by
  intro ms
  induction ms with
  | nil => intro m1 done _; simp
  | cons mech rest ih =>
      intro m1 done h
      by_cases hu : mech.uses_ion ion
      · have hbr : mapBracket m1 ion = (v, m1) := by
          unfold mapBracket
          rw [h]
        simp only [List.foldl_cons, if_pos hu, hbr]
        rw [ih m1 (done ++ [bindIon mech ion v]) h]
        simp [hu]
      · simp only [List.foldl_cons, if_neg hu]
        rw [ih m1 (done ++ [mech]) h]
        simp [hu]

/-- The `set_ion` loop when the map holds no entry for the ion: the first
using mechanism default-constructs the entry through `ions_[ion]`; every
using mechanism ends up bound to that default entry. -/
theorem setIonLoop_absent (ion : IonKind) :
    ∀ (ms : List (MechIonInfo R)) (m1 : IonMap R)
      (done : List (MechIonInfo R)),
      mapFind m1 ion = none →
      (ms.foldl
        (fun st mech =>
          if mech.uses_ion ion then
            let bv := mapBracket st.1 ion
            (bv.2, st.2 ++ [bindIon mech ion bv.1])
          else (st.1, st.2 ++ [mech]))
        (m1, done))
      = (if ms.any (fun m => m.uses_ion ion) then
            m1 ++ [(ion, defaultIonState)] else m1,
         done ++ ms.map (fun mech =>
          if mech.uses_ion ion then bindIon mech ion defaultIonState
          else mech)) := by
  intro ms
  induction ms with
  | nil => intro m1 done _; simp
  | cons mech rest ih =>
      intro m1 done h
      by_cases hu : mech.uses_ion ion
      · have hbr : mapBracket m1 ion =
            (defaultIonState, m1 ++ [(ion, defaultIonState)]) := by
          unfold mapBracket
          rw [h]
        simp only [List.foldl_cons, if_pos hu, hbr]
        have hpres : mapFind (m1 ++ [(ion, defaultIonState)]) ion =
            some defaultIonState :=
          mapFind_append_single_self m1 ion defaultIonState h
        rw [setIonLoop_present ion defaultIonState rest _ _ hpres]
        simp [hu]
      · simp only [List.foldl_cons, if_neg hu]
        rw [ih m1 (done ++ [mech]) h]
        simp [hu]

theorem indexSetOf_eq_nil_of_no_user (mechs : List (MechIonInfo R))
    (ion : IonKind) (h : ∀ m ∈ mechs, m.uses_ion ion = false) :
    indexSetOf mechs ion = [] := by
  rw [List.eq_nil_iff_forall_not_mem]
  intro z hz
  rcases (mem_indexSetOf z mechs ion).mp hz with ⟨m, hm, hu, _⟩
  rw [h m hm] at hu
  cases hu

theorem indexSetOf_ne_nil_user (mechs : List (MechIonInfo R)) (ion : IonKind)
    (h : indexSetOf mechs ion ≠ []) :
    mechs.any (fun m => m.uses_ion ion) = true := by
  by_contra hany
  refine h (indexSetOf_eq_nil_of_no_user mechs ion ?_)
  intro m hm
  simp only [List.any_eq_true, not_exists, not_and] at hany
  have := hany m hm
  simpa using this

/-- One pass of the per-ion loop of the constructor, on a map that does
not yet hold the ion: the map gains the entry over the sorted index union
exactly when some mechanism uses the ion (an empty union gives the
default-constructed entry, which equals the state over the empty union),
and every using mechanism is bound to that entry. -/
theorem buildIonsStep_char (acc : IonMap R × List (MechIonInfo R))
    (ion : IonKind) (h : mapFind acc.1 ion = none) :
    buildIonsStep acc ion =
      (if acc.2.any (fun m => m.uses_ion ion) then
          acc.1 ++ [(ion, mkIonState (indexSetOf acc.2 ion))]
        else acc.1,
       acc.2.map (fun mech =>
        if mech.uses_ion ion then
          bindIon mech ion (mkIonState (indexSetOf acc.2 ion))
        else mech)) := by
  unfold buildIonsStep
  by_cases hidx : indexSetOf acc.2 ion = []
  · rw [hidx]
    simp only [ne_eq, not_true_eq_false, if_false, mkIonState_nil]
    rw [setIonLoop_absent ion acc.2 acc.1 [] h]
    by_cases hany : acc.2.any (fun m => m.uses_ion ion)
    · simp [hany]
    · simp [hany]
  · have hany : acc.2.any (fun m => m.uses_ion ion) = true :=
      indexSetOf_ne_nil_user acc.2 ion hidx
    simp only [ne_eq, hidx, not_false_eq_true, if_true]
    have hemp : mapEmplace acc.1 ion (mkIonState (indexSetOf acc.2 ion)) =
        acc.1 ++ [(ion, mkIonState (indexSetOf acc.2 ion))] := by
      unfold mapEmplace
      rw [h]
    rw [hemp]
    have hpres : mapFind
        (acc.1 ++ [(ion, mkIonState (indexSetOf acc.2 ion))]) ion =
        some (mkIonState (indexSetOf acc.2 ion)) :=
      mapFind_append_single_self acc.1 ion _ h
    rw [setIonLoop_present ion _ acc.2 _ [] hpres]
    simp [hany]

theorem indexSetOf_map (mechs : List (MechIonInfo R))
    (g : MechIonInfo R → MechIonInfo R)
    (hg : ∀ m, (g m).uses_ion = m.uses_ion ∧ (g m).node_index = m.node_index)
    (ion : IonKind) :
    indexSetOf (mechs.map g) ion = indexSetOf mechs ion := by
  unfold indexSetOf
  rw [List.foldl_map]
  have hfun : (fun (acc : List ℕ) (m : MechIonInfo R) =>
      if (g m).uses_ion ion then
        (g m).node_index.foldl (fun a i => setInsert i a) acc
      else acc)
      = (fun acc m =>
      if m.uses_ion ion then
        m.node_index.foldl (fun a i => setInsert i a) acc
      else acc) := by
    funext acc m
    rw [(hg m).1, (hg m).2]
  rw [hfun]

theorem any_map_uses (mechs : List (MechIonInfo R))
    (g : MechIonInfo R → MechIonInfo R)
    (hg : ∀ m, (g m).uses_ion = m.uses_ion) (ion : IonKind) :
    (mechs.map g).any (fun m => m.uses_ion ion) =
      mechs.any (fun m => m.uses_ion ion) := by
  induction mechs with
  | nil => rfl
  | cons m rest ih => simp [List.any_cons, hg m, ih]

/-- One conditional `set_ion` stage of the per-ion loop, as it acts on a
single mechanism. -/
def ionStageBind (A : List ℕ) (ion : IonKind) (mech : MechIonInfo R) :
    MechIonInfo R :=
  if mech.uses_ion ion then bindIon mech ion (mkIonState A) else mech

theorem ionStageBind_uses (A : List ℕ) (ion : IonKind)
    (mech : MechIonInfo R) :
    (ionStageBind A ion mech).uses_ion = mech.uses_ion := by
  unfold ionStageBind
  split <;> rfl

theorem ionStageBind_node (A : List ℕ) (ion : IonKind)
    (mech : MechIonInfo R) :
    (ionStageBind A ion mech).node_index = mech.node_index := by
  unfold ionStageBind
  split <;> rfl

/-- The accumulated effect of the per-ion loop on one mechanism: one
conditional bind per ion kind, in enumeration order. -/
def constructorIonBind (mechs : List (MechIonInfo R))
    (mech : MechIonInfo R) : MechIonInfo R :=
  ion_kinds.foldl
    (fun m ion => ionStageBind (indexSetOf mechs ion) ion m) mech

/-- The ion loop of the constructor, fully unrolled: the resulting map
lists, in enumeration order, one entry over the sorted index union for
every ion kind used by some mechanism, and every mechanism carries its
conditional bindings. -/
theorem buildIons_eq (mechs : List (MechIonInfo R)) :
    buildIons mechs =
      ((if mechs.any (fun m => m.uses_ion IonKind.na) then
          [(IonKind.na, mkIonState (indexSetOf mechs IonKind.na))] else [])
        ++ (if mechs.any (fun m => m.uses_ion IonKind.ca) then
          [(IonKind.ca, mkIonState (indexSetOf mechs IonKind.ca))] else [])
        ++ (if mechs.any (fun m => m.uses_ion IonKind.k) then
          [(IonKind.k, mkIonState (indexSetOf mechs IonKind.k))] else []),
       mechs.map (constructorIonBind mechs)) := by
  have hstage : ∀ (A : List ℕ) (ion : IonKind) (m : MechIonInfo R),
      (ionStageBind A ion m).uses_ion = m.uses_ion ∧
      (ionStageBind A ion m).node_index = m.node_index :=
    fun A ion m => ⟨ionStageBind_uses A ion m, ionStageBind_node A ion m⟩
  have huses : ∀ (A : List ℕ) (ion : IonKind) (m : MechIonInfo R),
      (ionStageBind A ion m).uses_ion = m.uses_ion :=
    fun A ion m => ionStageBind_uses A ion m
  -- step 1: sodium, on the empty map
  have h1 := buildIonsStep_char (R := R) (([] : IonMap R), mechs)
    IonKind.na rfl
  -- names for the three index unions over the original mechanism list
  set Ana := indexSetOf mechs IonKind.na with hAna
  set Aca := indexSetOf mechs IonKind.ca with hAca
  set Ak := indexSetOf mechs IonKind.k with hAk
  have hbuild : buildIons mechs =
      buildIonsStep (buildIonsStep (buildIonsStep (([] : IonMap R), mechs)
        IonKind.na) IonKind.ca) IonKind.k := by
    simp [buildIons, ion_kinds]
  rw [hbuild, h1]
  -- step 2: calcium
  set mechs1 := mechs.map (fun mech =>
    if mech.uses_ion IonKind.na then
      bindIon mech IonKind.na (mkIonState Ana) else mech) with hm1
  have hm1' : mechs1 = mechs.map (ionStageBind Ana IonKind.na) := rfl
  set M1 : IonMap R := (if mechs.any (fun m => m.uses_ion IonKind.na) then
      [(IonKind.na, mkIonState Ana)] else []) with hM1
  have hM1eq : (if mechs.any (fun m => m.uses_ion IonKind.na) then
      ([] : IonMap R) ++ [(IonKind.na, mkIonState Ana)] else []) = M1 := by
    rw [hM1]
    split <;> simp
  rw [hM1eq]
  have hfindM1ca : mapFind M1 IonKind.ca = none := by
    rw [hM1]
    split <;> simp [mapFind]
  have h2 := buildIonsStep_char (M1, mechs1) IonKind.ca hfindM1ca
  simp only at h2
  rw [h2]
  have hidx1 : ∀ ion, indexSetOf mechs1 ion = indexSetOf mechs ion := by
    intro ion
    rw [hm1']
    exact indexSetOf_map mechs _ (fun m => hstage _ _ m) ion
  have hany1 : ∀ ion, mechs1.any (fun m => m.uses_ion ion) =
      mechs.any (fun m => m.uses_ion ion) := by
    intro ion
    rw [hm1']
    exact any_map_uses mechs _ (fun m => huses _ _ m) ion
  -- step 3: potassium
  set mechs2 := mechs1.map (fun mech =>
    if mech.uses_ion IonKind.ca then
      bindIon mech IonKind.ca (mkIonState (indexSetOf mechs1 IonKind.ca))
    else mech) with hm2
  have hm2' : mechs2 = mechs1.map (ionStageBind Aca IonKind.ca) := by
    rw [hm2]
    simp only [hidx1]
    rfl
  set M2 : IonMap R := (if mechs1.any (fun m => m.uses_ion IonKind.ca) then
      M1 ++ [(IonKind.ca, mkIonState (indexSetOf mechs1 IonKind.ca))]
    else M1) with hM2
  have hfindM2k : mapFind M2 IonKind.k = none := by
    have hgen : mapFind M1 IonKind.k = none := by
      rw [hM1]
      split <;> simp [mapFind]
    rw [hM2]
    split
    · rw [mapFind_append_single_other _ _ _ _ (by simp)]
      exact hgen
    · exact hgen
  have h3 := buildIonsStep_char (M2, mechs2) IonKind.k hfindM2k
  simp only at h3
  rw [h3]
  have hidx2 : ∀ ion, indexSetOf mechs2 ion = indexSetOf mechs ion := by
    intro ion
    rw [hm2']
    rw [indexSetOf_map mechs1 _ (fun m => hstage _ _ m) ion]
    exact hidx1 ion
  have hany2 : ∀ ion, mechs2.any (fun m => m.uses_ion ion) =
      mechs.any (fun m => m.uses_ion ion) := by
    intro ion
    rw [hm2']
    rw [any_map_uses mechs1 _ (fun m => huses _ _ m) ion]
    exact hany1 ion
  refine Prod.ext ?_ ?_
  · -- the map component
    simp only [hany2, hidx2, hM2, hany1, hidx1, hM1]
    split <;> split <;> split <;> simp
  · -- the mechanism component
    simp only [hany2, hidx2, hidx1]
    rw [show (mechs2.map (fun mech =>
        if mech.uses_ion IonKind.k then
          bindIon mech IonKind.k (mkIonState Ak) else mech))
      = mechs2.map (ionStageBind Ak IonKind.k) from rfl]
    rw [hm2', hm1']
    simp only [List.map_map]
    apply List.map_congr_left
    intro m _
    simp [constructorIonBind, ion_kinds, Function.comp]

theorem mkIonState_node (idx : List ℕ) :
    (mkIonState idx : IonState R).node_index = idx := rfl

theorem applyIonDefaults_node (lg : R → R) (kind : IonKind)
    (st : IonState R) :
    (applyIonDefaults lg kind st).node_index = st.node_index := by
  cases kind <;> rfl

theorem defaultsStage_find_self (lg : R → R) (kind : IonKind)
    (m : IonMap R) :
    mapFind (defaultsStage lg kind m) kind =
      some (applyIonDefaults lg kind (ionAt m kind)) := by
  unfold defaultsStage
  rw [mapFind_mapAssign_self, mapFind_mapBracket_self]
  rw [mapBracket_fst]
  rfl

theorem defaultsStage_find_other (lg : R → R) (kind kind' : IonKind)
    (m : IonMap R) (h : kind ≠ kind') :
    mapFind (defaultsStage lg kind m) kind' = mapFind m kind' := by
  unfold defaultsStage
  rw [mapFind_mapAssign_other _ _ _ _ h, mapFind_mapBracket_other _ _ _ h]

/-- After the default-assignment blocks, every ion kind is present in the
map and carries the default values applied to whatever entry the build
phase produced (the default-constructed state when it produced none). -/
theorem setIonDefaults_find (lg : R → R) (m : IonMap R) (kind : IonKind) :
    mapFind (setIonDefaults lg m) kind =
      some (applyIonDefaults lg kind (ionAt m kind)) := by
  unfold setIonDefaults
  cases kind with
  | na =>
      rw [defaultsStage_find_other _ _ _ _ (by simp),
        defaultsStage_find_other _ _ _ _ (by simp),
        defaultsStage_find_self]
  | k =>
      rw [defaultsStage_find_other _ _ _ _ (by simp),
        defaultsStage_find_self]
      unfold ionAt
      rw [defaultsStage_find_other _ _ _ _ (by simp)]
  | ca =>
      rw [defaultsStage_find_self]
      unfold ionAt
      rw [defaultsStage_find_other _ _ _ _ (by simp),
        defaultsStage_find_other _ _ _ _ (by simp)]

/-- The map produced by the build loop holds, at each kind, exactly the
ion state over the sorted index union when some mechanism uses the kind,
and no entry otherwise. -/
theorem buildIons_find (mechs : List (MechIonInfo R)) (kind : IonKind) :
    mapFind (buildIons mechs).1 kind =
      (if mechs.any (fun m => m.uses_ion kind) then
        some (mkIonState (indexSetOf mechs kind)) else none) := by
  rw [buildIons_eq]
  cases kind <;> (simp only; split_ifs <;> simp_all [mapFind])

/-- The state of each ion kind after the whole ion phase: the default
values applied to the entry of the build loop (or to the
default-constructed state when the kind is unused). -/
theorem fvm_ionAt (lg : R → R) (mechs : List (MechIonInfo R))
    (kind : IonKind) :
    ionAt (fvm_build_ion_state lg mechs).1 kind =
      applyIonDefaults lg kind
        (if mechs.any (fun m => m.uses_ion kind) then
          mkIonState (indexSetOf mechs kind) else defaultIonState) := by
  unfold fvm_build_ion_state ionAt
  simp only
  rw [setIonDefaults_find]
  unfold ionAt
  rw [buildIons_find]
  split <;> simp

/-- `isSome` of the map after the whole ion phase, at every kind. -/
theorem fvm_find_isSome (lg : R → R) (mechs : List (MechIonInfo R))
    (kind : IonKind) :
    (mapFind (fvm_build_ion_state lg mechs).1 kind).isSome = true := by
  unfold fvm_build_ion_state
  simp only
  rw [setIonDefaults_find]
  rfl

theorem constructorIonBind_stages (mechs : List (MechIonInfo R))
    (mech : MechIonInfo R) :
    constructorIonBind mechs mech =
      ionStageBind (indexSetOf mechs IonKind.k) IonKind.k
        (ionStageBind (indexSetOf mechs IonKind.ca) IonKind.ca
          (ionStageBind (indexSetOf mechs IonKind.na) IonKind.na mech)) := by
  simp [constructorIonBind, ion_kinds]

theorem ionStageBind_binding_self (A : List ℕ) (ion : IonKind)
    (m : MechIonInfo R) (hu : m.uses_ion ion = true) :
    (ionStageBind A ion m).ion_binding ion = some (mkIonState A) := by
  unfold ionStageBind
  rw [if_pos hu]
  exact bindIon_binding_self _ _ _

theorem ionStageBind_binding_other (A : List ℕ) (ion ion' : IonKind)
    (m : MechIonInfo R) (h : ion' ≠ ion) :
    (ionStageBind A ion m).ion_binding ion' = m.ion_binding ion' := by
  unfold ionStageBind
  split
  · exact bindIon_binding_other _ _ _ _ h
  · rfl

theorem constructorIonBind_uses (mechs : List (MechIonInfo R))
    (mech : MechIonInfo R) :
    (constructorIonBind mechs mech).uses_ion = mech.uses_ion := by
  rw [constructorIonBind_stages]
  rw [ionStageBind_uses, ionStageBind_uses, ionStageBind_uses]

/-- Every mechanism that uses an ion is bound, by the per-ion loop, to
the cell-wide ion state over the sorted index union for that ion. -/
theorem constructorIonBind_binding (mechs : List (MechIonInfo R))
    (mech : MechIonInfo R) (ion : IonKind)
    (hu : mech.uses_ion ion = true) :
    (constructorIonBind mechs mech).ion_binding ion =
      some (mkIonState (indexSetOf mechs ion)) := by
  rw [constructorIonBind_stages]
  cases ion with
  | na =>
      rw [ionStageBind_binding_other _ _ _ _ (by simp),
        ionStageBind_binding_other _ _ _ _ (by simp),
        ionStageBind_binding_self _ _ _ hu]
  | ca =>
      rw [ionStageBind_binding_other _ _ _ _ (by simp),
        ionStageBind_binding_self]
      rw [ionStageBind_uses]
      exact hu
  | k =>
      rw [ionStageBind_binding_self]
      rw [ionStageBind_uses, ionStageBind_uses]
      exact hu

theorem assignAllR_self_replicate (v : List R) (x : R) :
    assignAllR v x = List.replicate (assignAllR v x).length x := by
  rw [assignAllR_eq_replicate]
  simp

/-- C7: for every constructed integrator and every ion kind referenced by
at least one mechanism, the CV index list of that ion equals the sorted,
duplicate-free union of the node_index lists of the mechanisms using the
ion, and every such mechanism is bound to that shared ion state. -/
theorem C7_ion_index_union (mechs : List (MechIonInfo ℝ)) (ion : IonKind)
    (h : ∃ m ∈ mechs, m.uses_ion ion = true) :
    (ionAt (fvm_build_ion_state Real.log mechs).1 ion).node_index =
        indexSetOf mechs ion
    ∧ List.Sorted (· < ·) (indexSetOf mechs ion)
    ∧ (indexSetOf mechs ion).Nodup
    ∧ (∀ z, z ∈ indexSetOf mechs ion ↔
        ∃ m ∈ mechs, m.uses_ion ion = true ∧ z ∈ m.node_index)
    ∧ (∀ mech ∈ (fvm_build_ion_state Real.log mechs).2,
        mech.uses_ion ion = true →
          mech.ion_binding ion = some (mkIonState (indexSetOf mechs ion))) := by
  have hany : mechs.any (fun m => m.uses_ion ion) = true := by
    simp only [List.any_eq_true]
    rcases h with ⟨m, hm, hu⟩
    exact ⟨m, hm, hu⟩
  refine ⟨?_, sorted_indexSetOf mechs ion, nodup_indexSetOf mechs ion,
    fun z => mem_indexSetOf z mechs ion, ?_⟩
  · rw [fvm_ionAt, if_pos hany, applyIonDefaults_node, mkIonState_node]
  · intro mech hmem hu
    have hsnd : (fvm_build_ion_state Real.log mechs).2 =
        mechs.map (constructorIonBind mechs) := by
      unfold fvm_build_ion_state
      simp only
      rw [buildIons_eq]
    rw [hsnd] at hmem
    rcases List.mem_map.mp hmem with ⟨m0, hm0, rfl⟩
    rw [constructorIonBind_uses] at hu
    exact constructorIonBind_binding mechs m0 ion hu

/-- A mechanism over the reals that uses sodium on compartments 1, 0, 1. -/
def mechNa : MechIonInfo ℝ :=
  ⟨fun kk => kk == IonKind.na, [1, 0, 1], fun _ => none⟩

/-- Witness for C7: the one-mechanism cell using sodium. -/
theorem C7_ion_index_union_witness :
    (∃ m ∈ [mechNa], m.uses_ion IonKind.na = true) ∧
    ((ionAt (fvm_build_ion_state Real.log [mechNa]).1 IonKind.na).node_index =
        indexSetOf [mechNa] IonKind.na
    ∧ List.Sorted (· < ·) (indexSetOf [mechNa] IonKind.na)
    ∧ (indexSetOf [mechNa] IonKind.na).Nodup
    ∧ (∀ z, z ∈ indexSetOf [mechNa] IonKind.na ↔
        ∃ m ∈ [mechNa], m.uses_ion IonKind.na = true ∧ z ∈ m.node_index)
    ∧ (∀ mech ∈ (fvm_build_ion_state Real.log [mechNa]).2,
        mech.uses_ion IonKind.na = true →
          mech.ion_binding IonKind.na =
            some (mkIonState (indexSetOf [mechNa] IonKind.na)))) := by
  have h : ∃ m ∈ [mechNa], m.uses_ion IonKind.na = true :=
    ⟨mechNa, by simp, rfl⟩
  exact ⟨h, C7_ion_index_union [mechNa] IonKind.na h⟩

/-- C8: after construction the default ion values are: sodium reversal
potential 115 + (-65) = 50 mV, internal concentration 10 mM, external
140 mM; potassium reversal -12 + (-65) = -77 mV, internal 54.4 mM,
external 2.5 mM; calcium reversal 12.5 * ln(2.0 / 5e-5) mV, internal
5e-5 mM, external 2.0 mM, at every index of each ion vector. -/
theorem C8_default_ion_values (mechs : List (MechIonInfo ℝ)) :
    ((115 : ℝ) + (-65) = 50)
    ∧ ((-12 : ℝ) + (-65) = -77)
    ∧ ((ionAt (fvm_build_ion_state Real.log mechs).1
          IonKind.na).reversal_potential =
        List.replicate (ionAt (fvm_build_ion_state Real.log mechs).1
          IonKind.na).reversal_potential.length ((115 : ℝ) + (-65)))
    ∧ ((ionAt (fvm_build_ion_state Real.log mechs).1
          IonKind.na).internal_concentration =
        List.replicate (ionAt (fvm_build_ion_state Real.log mechs).1
          IonKind.na).internal_concentration.length (10 : ℝ))
    ∧ ((ionAt (fvm_build_ion_state Real.log mechs).1
          IonKind.na).external_concentration =
        List.replicate (ionAt (fvm_build_ion_state Real.log mechs).1
          IonKind.na).external_concentration.length (140 : ℝ))
    ∧ ((ionAt (fvm_build_ion_state Real.log mechs).1
          IonKind.k).reversal_potential =
        List.replicate (ionAt (fvm_build_ion_state Real.log mechs).1
          IonKind.k).reversal_potential.length ((-12 : ℝ) + (-65)))
    ∧ ((ionAt (fvm_build_ion_state Real.log mechs).1
          IonKind.k).internal_concentration =
        List.replicate (ionAt (fvm_build_ion_state Real.log mechs).1
          IonKind.k).internal_concentration.length (54.4 : ℝ))
    ∧ ((ionAt (fvm_build_ion_state Real.log mechs).1
          IonKind.k).external_concentration =
        List.replicate (ionAt (fvm_build_ion_state Real.log mechs).1
          IonKind.k).external_concentration.length (2.5 : ℝ))
    ∧ ((ionAt (fvm_build_ion_state Real.log mechs).1
          IonKind.ca).reversal_potential =
        List.replicate (ionAt (fvm_build_ion_state Real.log mechs).1
          IonKind.ca).reversal_potential.length
          ((12.5 : ℝ) * Real.log (2.0 / 5e-5)))
    ∧ ((ionAt (fvm_build_ion_state Real.log mechs).1
          IonKind.ca).internal_concentration =
        List.replicate (ionAt (fvm_build_ion_state Real.log mechs).1
          IonKind.ca).internal_concentration.length (5e-5 : ℝ))
    ∧ ((ionAt (fvm_build_ion_state Real.log mechs).1
          IonKind.ca).external_concentration =
        List.replicate (ionAt (fvm_build_ion_state Real.log mechs).1
          IonKind.ca).external_concentration.length (2.0 : ℝ)) := by
  have hv : ((115 : ℝ) + (-65) = 50) := by norm_num
  have hk : ((-12 : ℝ) + (-65) = -77) := by norm_num
  have h544 : (54.4 : ℝ) = 272 / 5 := by norm_num
  have h25 : (2.5 : ℝ) = 5 / 2 := by norm_num
  have h5e : (5e-5 : ℝ) = 1 / 20000 := by norm_num
  have h20 : (2.0 : ℝ) = 2 := by norm_num
  have h125 : (12.5 : ℝ) = 25 / 2 := by norm_num
  have hvrest : (115 : ℝ) + (-65) = 115 + DEF_vrest := by
    rw [show (DEF_vrest : ℝ) = -65 from rfl]
  have hkrest : (-12 : ℝ) + (-65) = -12 + DEF_vrest := by
    rw [show (DEF_vrest : ℝ) = -65 from rfl]
  refine ⟨hv, hk, ?_, ?_, ?_, ?_, ?_, ?_, ?_, ?_, ?_⟩ <;>
    rw [fvm_ionAt] <;>
    simp only [applyIonDefaults, hvrest, hkrest, h544, h25, h125, h5e, h20] <;>
    exact assignAllR_self_replicate _ _

/-- Witness for C8: the default values at the empty cell. -/
theorem C8_default_ion_values_witness :
    ((115 : ℝ) + (-65) = 50)
    ∧ ((-12 : ℝ) + (-65) = -77)
    ∧ ((ionAt (fvm_build_ion_state Real.log
          ([] : List (MechIonInfo ℝ))).1 IonKind.na).reversal_potential =
        List.replicate (ionAt (fvm_build_ion_state Real.log
          ([] : List (MechIonInfo ℝ))).1
          IonKind.na).reversal_potential.length ((115 : ℝ) + (-65))) := by
  have h := C8_default_ion_values ([] : List (MechIonInfo ℝ))
  exact ⟨h.1, h.2.1, h.2.2.1⟩

/-- C10: after construction the ion map holds entries for all three ion
kinds, each default-constructed and then assigned the default values,
even when no mechanism references the kind; an unreferenced kind carries
the empty index list. -/
theorem C10_ion_map_complete (mechs : List (MechIonInfo ℝ))
    (kind : IonKind) :
    (mapFind (fvm_build_ion_state Real.log mechs).1 kind).isSome = true
    ∧ ((∀ m ∈ mechs, m.uses_ion kind = false) →
        (ionAt (fvm_build_ion_state Real.log mechs).1 kind).node_index
          = []) := by
  refine ⟨fvm_find_isSome _ _ _, fun hnone => ?_⟩
  have hany : ¬ (mechs.any (fun m => m.uses_ion kind) = true) := by
    simp only [List.any_eq_true]
    rintro ⟨m, hm, hu⟩
    rw [hnone m hm] at hu
    cases hu
  rw [fvm_ionAt, if_neg hany, applyIonDefaults_node]
  rfl

/-- Witness for C10: the empty cell still has a sodium map entry with the
empty index list. -/
theorem C10_ion_map_complete_witness :
    (mapFind (fvm_build_ion_state Real.log
        ([] : List (MechIonInfo ℝ))).1 IonKind.na).isSome = true
    ∧ (ionAt (fvm_build_ion_state Real.log
        ([] : List (MechIonInfo ℝ))).1 IonKind.na).node_index = [] := by
  have h := C10_ion_map_complete ([] : List (MechIonInfo ℝ)) IonKind.na
  exact ⟨h.1, h.2 (by simp)⟩

/-! ## The integrator state and its stepping (source lines 136-527)

Scalars are embedded as rationals; vectors of length `n` as total
functions on ℕ read only below `n`. The mechanism ABI of spec §4.3 is
embedded as a record of functions: the mechanism bodies are external
plug-ins of the core. -/

/-- One membrane mechanism instance as the integrator drives it (ABI of
spec §4.3). `params` holds the `(t, dt)` pair stored by `set_params`;
`state` is the mechanism-private state advanced by `nrn_state`;
`currentFn` is `nrn_current` (reads the shared voltage, the stored params
and the own state, rewrites the shared current); `stateFn` is `nrn_state`
(reads the shared voltage and the stored params, rewrites the own state);
`net_receive` accepts targets below `netRecvSize` and folds the weight
into the own state. Mechanisms never write the voltage. -/
structure Mechanism where
  params : ℚ × ℚ
  state : List ℚ
  node_index : List ℕ
  currentFn : (ℕ → ℚ) → (ℚ × ℚ) → List ℚ → (ℕ → ℚ) → (ℕ → ℚ)
  stateFn : (ℕ → ℚ) → (ℚ × ℚ) → List ℚ → List ℚ
  netRecvSize : ℕ
  netRecvFn : ℕ → ℚ → List ℚ → List ℚ

/-- An `i_clamp` stimulus body (`stimulus.hpp` is not part of the
available sources). Only its time-dependent amplitude matters to the
integrator; per spec §7 its evaluation may fail and the failure
propagates unchanged. -/
structure Stimulus where
  amplitude : ℚ → Except Unit ℚ

/-- A postsynaptic event: time, target index and weight. -/
structure Event where
  time : ℚ
  target : ℕ
  weight : ℚ
deriving DecidableEq, Repr

/-- Modelled from the spec: `event_queue.hpp` is not part of the
available sources. §4.5: a min-heap of events ordered by time (ties by
target, then weight); embedded as a list kept sorted by time.
`pop_if_before(t)` pops and returns the earliest event if its time is
strictly less than `t`, else leaves the queue untouched. -/
def pop_if_before (q : List Event) (t : ℚ) : Option Event × List Event :=
  match q with
  | [] => (none, [])
  | e :: rest => if e.time < t then (some e, rest) else (none, e :: rest)

/-- The state of `fvm_cell<T, I>` (source lines 149-192): size and parent
index of the matrix, CV geometry, current and voltage, matrix storage
`d`, `l`, `u`, `rhs`, the mechanisms with the designated synapse index,
the stimuli, the event queue and the time. -/
structure FvmCell where
  n : ℕ
  p : ℕ → ℕ
  cv_areas : ℕ → ℚ
  face_alpha : ℕ → ℚ
  cv_capacitance : ℕ → ℚ
  current : ℕ → ℚ
  voltage : ℕ → ℚ
  d : ℕ → ℚ
  l : ℕ → ℚ
  u : ℕ → ℚ
  rhs : ℕ → ℚ
  mechs : List Mechanism
  synapse_index : ℕ
  stimulii : List (ℕ × Stimulus)
  events : List Event
  t : ℚ

/-- `setup_matrix(dt)` (source lines 410-454): `d(all) = cv_areas_`; for
`i = 1 .. n-1`, with `a = 1e5 * dt * face_alpha_[i]`, add `a` to `d[i]`,
set `l[i] = -a` and `u[i] = -a`, and add `a` to `d[p[i]]`; finally
`rhs[i] = cv_areas_[i] * (voltage_[i] - 10*dt / cv_capacitance_[i] * current_[i])`. -/
def assemblyStep (s : FvmCell) (dt : ℚ)
    (dlu : (ℕ → ℚ) × (ℕ → ℚ) × (ℕ → ℚ)) (i : ℕ) :
    (ℕ → ℚ) × (ℕ → ℚ) × (ℕ → ℚ) :=
  let a := 100000 * dt * s.face_alpha i
  let d1 := Function.update dlu.1 i (dlu.1 i + a)
  let d2 := Function.update d1 (s.p i) (d1 (s.p i) + a)
  (d2, Function.update dlu.2.1 i (-a), Function.update dlu.2.2 i (-a))

def setup_matrix (s : FvmCell) (dt : ℚ) : FvmCell :=
  let d0 : ℕ → ℚ := fun i => if i < s.n then s.cv_areas i else s.d i
  let dlu := (List.range' 1 (s.n - 1)).foldl (assemblyStep s dt) (d0, s.l, s.u)
  let rhs1 : ℕ → ℚ := fun i =>
    if i < s.n then
      s.cv_areas i * (s.voltage i - 10 * dt / s.cv_capacitance i * s.current i)
    else s.rhs i
  { s with d := dlu.1, l := dlu.2.1, u := dlu.2.2, rhs := rhs1 }

inductive ErrKind where
| stimulusError : ErrKind
| zeroPivot : ErrKind
| badTarget : ErrKind
deriving DecidableEq, Repr

/-- A runtime failure together with the state as mutated up to the throw
(C++ exception semantics: the object keeps the mutations made so far). -/
abbrev ErrState := ErrKind × FvmCell

/-- Modelled from the spec: `matrix.hpp` is not part of the available
sources. §4.2 `solve()`, reverse sweep `i = N-1 .. 1`: eliminate the
entry `u[i]` at `(p[i], i)` by subtracting `u[i]/d[i]` times row `i`
(entries `l[i]` at `p[i]` and `d[i]` at `i`) from row `p[i]`; a zero
diagonal is the fatal numerical error, returning the partially updated
`(d, rhs)`. -/
def solveBwdE (p : ℕ → ℕ) (l u : ℕ → ℚ) :
    ℕ → (ℕ → ℚ) × (ℕ → ℚ) →
      Except ((ℕ → ℚ) × (ℕ → ℚ)) ((ℕ → ℚ) × (ℕ → ℚ))
| 0, dr => Except.ok dr
| i + 1, dr =>
    if dr.1 (i + 1) = 0 then Except.error dr
    else
      let f := u (i + 1) / dr.1 (i + 1)
      let d1 := Function.update dr.1 (p (i + 1))
        (dr.1 (p (i + 1)) - f * l (i + 1))
      let r1 := Function.update dr.2 (p (i + 1))
        (dr.2 (p (i + 1)) - f * dr.2 (i + 1))
      solveBwdE p l u i (d1, r1)

/-- Modelled from the spec (§4.2): forward substitution `i = 1 .. k`,
`x[i] = (rhs[i] - l[i] * x[p[i]]) / d[i]`. -/
def solveFwd (p : ℕ → ℕ) (l : ℕ → ℚ) (d : ℕ → ℚ) :
    ℕ → (ℕ → ℚ) → (ℕ → ℚ)
| 0, rhs => rhs
| k + 1, rhs =>
    let r := solveFwd p l d k rhs
    Function.update r (k + 1)
      ((r (k + 1) - l (k + 1) * r (p (k + 1))) / d (k + 1))

/-- Modelled from the spec: `matrix_.solve()` overwrites `rhs` with the
solution; it fails only on a zero diagonal (§4.2, §7 `NumericalError`). -/
def solveE (s : FvmCell) : Except ErrState FvmCell :=
  match solveBwdE s.p s.l s.u (s.n - 1) (s.d, s.rhs) with
  | Except.error dr =>
      Except.error (ErrKind.zeroPivot, { s with d := dr.1, rhs := dr.2 })
  | Except.ok dr =>
      if dr.1 0 = 0 then
        Except.error (ErrKind.zeroPivot, { s with d := dr.1, rhs := dr.2 })
      else
        let r0 := Function.update dr.2 0 (dr.2 0 / dr.1 0)
        Except.ok
          { s with d := dr.1, rhs := solveFwd s.p s.l dr.1 (s.n - 1) r0 }

/-- `current_(all) = 0` (source line 472). -/
def zeroCurrent (s : FvmCell) : FvmCell :=
  { s with current := fun i => if i < s.n then 0 else s.current i }

/-- The mechanism loop of `advance` (source lines 475-478): for each
mechanism in construction order, `set_params(t_, dt)` then
`nrn_current()`, accumulating into the shared current vector. -/
def mechCurrentLoop (s : FvmCell) (dt : ℚ) : FvmCell :=
  let res := s.mechs.foldl
    (fun (acc : (ℕ → ℚ) × List Mechanism) m =>
      let m1 := { m with params := (s.t, dt) }
      (m1.currentFn s.voltage m1.params m1.state acc.1, acc.2 ++ [m1]))
    (s.current, [])
  { s with current := res.1, mechs := res.2 }

/-- The stimulus loop of `advance` (source lines 481-487):
`current_[loc] -= 100 * amplitude(t_) / cv_areas_[loc]`. A failing
amplitude evaluation aborts with the current vector as mutated so far. -/
def stimLoopGo (t : ℚ) (A : ℕ → ℚ) :
    List (ℕ × Stimulus) → (ℕ → ℚ) → Except (ℕ → ℚ) (ℕ → ℚ)
| [], cur => Except.ok cur
| stim :: rest, cur =>
    match stim.2.amplitude t with
    | Except.error _ => Except.error cur
    | Except.ok ie =>
        stimLoopGo t A rest
          (Function.update cur stim.1 (cur stim.1 - 100 * ie / A stim.1))

def stimLoopE (s : FvmCell) : Except ErrState FvmCell :=
  match stimLoopGo s.t s.cv_areas s.stimulii s.current with
  | Except.error cur =>
      Except.error (ErrKind.stimulusError, { s with current := cur })
  | Except.ok cur => Except.ok { s with current := cur }

/-- The state-update loop of `advance` (source lines 498-500):
`nrn_state()` for each mechanism, reading the updated voltage and the
stored params. -/
def mechStateLoop (s : FvmCell) : FvmCell :=
  { s with mechs := s.mechs.map (fun m =>
      { m with state := m.stateFn s.voltage m.params m.state }) }

/-- `advance(dt)` (source lines 467-503): zero the current; for each
mechanism `set_params(t_, dt)` then `nrn_current()`; add the stimulus
contributions; `setup_matrix(dt)`; `solve()`; copy the solution into the
voltage; `nrn_state()` for each mechanism; `t_ += dt`. A failure carries
the state as mutated up to the failing operation. -/
def advanceE (s : FvmCell) (dt : ℚ) : Except ErrState FvmCell :=
  let s1 := zeroCurrent s
  let s2 := mechCurrentLoop s1 dt
  match stimLoopE s2 with
  | Except.error e => Except.error e
  | Except.ok s3 =>
      let s4 := setup_matrix s3 dt
      match solveE s4 with
      | Except.error e => Except.error e
      | Except.ok s5 =>
          let s6 := { s5 with voltage :=
            fun i => if i < s5.n then s5.rhs i else s5.voltage i }
          let s7 := mechStateLoop s6
          Except.ok { s7 with t := s7.t + dt }

/-- `mechanisms_[synapse_index_]->net_receive(e.target, e.weight)`
(source line 524). An out-of-range target is the `OutOfRangeTarget`
failure of spec §7, checked ahead of any mutation. -/
def netReceiveE (s : FvmCell) (e : Event) : Except ErrState FvmCell :=
  match s.mechs[s.synapse_index]? with
  | none => Except.error (ErrKind.badTarget, s)
  | some m =>
      if e.target < m.netRecvSize then
        Except.ok { s with mechs := s.mechs.set s.synapse_index { m with state := m.netRecvFn e.target e.weight m.state } }
      else Except.error (ErrKind.badTarget, s)

/-- The sub-step part of one `advance_to` iteration (source lines
512-520): `tnext = min(tfinal, t_ + dt)`; `pop_if_before(tnext)`; on an
event set `tnext` to its time; `advance(tnext - t_)`; `t_ = tnext`.
Returns the popped event for the subsequent dispatch. -/
def advance_to_stepE (s : FvmCell) (tfinal dt : ℚ) :
    Except ErrState (FvmCell × Option Event) :=
  let tnext := min tfinal (s.t + dt)
  match pop_if_before s.events tnext with
  | (none, q) =>
      match advanceE { s with events := q } (tnext - s.t) with
      | Except.error e => Except.error e
      | Except.ok s1 => Except.ok ({ s1 with t := tnext }, none)
  | (some e, q) =>
      match advanceE { s with events := q } (e.time - s.t) with
      | Except.error er => Except.error er
      | Except.ok s1 => Except.ok ({ s1 with t := e.time }, some e)

/-- One full iteration of the `advance_to` loop (source lines 512-525):
the sub-step, then the dispatch of the popped event, if any. -/
def advance_to_bodyE (s : FvmCell) (tfinal dt : ℚ) :
    Except ErrState FvmCell :=
  match advance_to_stepE s tfinal dt with
  | Except.error e => Except.error e
  | Except.ok (s1, none) => Except.ok s1
  | Except.ok (s1, some e) => netReceiveE s1 e

/-- The do-while loop of `advance_to`, with an explicit iteration bound
(the source loop is unbounded; every claim is stated for a sufficient
bound). -/
def advance_to_goE : ℕ → FvmCell → ℚ → ℚ → Except ErrState FvmCell
| 0, s, _, _ => Except.ok s
| fuel + 1, s, tfinal, dt =>
    match advance_to_bodyE s tfinal dt with
    | Except.error e => Except.error e
    | Except.ok s1 =>
        if s1.t < tfinal then advance_to_goE fuel s1 tfinal dt
        else Except.ok s1

/-- `advance_to(tfinal, dt)` (source lines 505-527): return immediately
when `t_ >= tfinal`, else run the do-while loop. -/
def advance_toE (s : FvmCell) (tfinal dt : ℚ) (fuel : ℕ) :
    Except ErrState FvmCell :=
  if tfinal ≤ s.t then Except.ok s
  else advance_to_goE fuel s tfinal dt

/-- Observed data of one sub-step of `advance_to`: start and end times,
the popped event, if any, and the queue after the pop. -/
structure Substep where
  t0 : ℚ
  t1 : ℚ
  popped : Option Event
  qAfter : List Event
deriving DecidableEq, Repr

/-- `advance_to_stepE` together with its observed sub-step record. -/
def advance_to_stepTraceE (s : FvmCell) (tfinal dt : ℚ) :
    Except ErrState ((FvmCell × Option Event) × Substep) :=
  match advance_to_stepE s tfinal dt with
  | Except.error e => Except.error e
  | Except.ok (s1, pe) => Except.ok ((s1, pe), ⟨s.t, s1.t, pe, s1.events⟩)

/-- The `advance_to` loop accumulating the observed sub-steps. -/
def advance_to_goTraceE :
    ℕ → FvmCell → ℚ → ℚ → List Substep →
      Except ErrState (FvmCell × List Substep)
| 0, s, _, _, tr => Except.ok (s, tr)
| fuel + 1, s, tfinal, dt, tr =>
    match advance_to_stepTraceE s tfinal dt with
    | Except.error e => Except.error e
    | Except.ok ((s1, pe), rec) =>
        match (match pe with
               | none => Except.ok s1
               | some e => netReceiveE s1 e) with
        | Except.error e => Except.error e
        | Except.ok s2 =>
            if s2.t < tfinal then
              advance_to_goTraceE fuel s2 tfinal dt (tr ++ [rec])
            else Except.ok (s2, tr ++ [rec])

/-- `advance_to` with the observed sub-steps. -/
def advance_to_traceE (s : FvmCell) (tfinal dt : ℚ) (fuel : ℕ) :
    Except ErrState (FvmCell × List Substep) :=
  if tfinal ≤ s.t then Except.ok (s, [])
  else advance_to_goTraceE fuel s tfinal dt []

/-- The sub-step sizes of a trace. -/
def substepSizes (tr : List Substep) : List ℚ :=
  tr.map (fun r => r.t1 - r.t0)

/-! ## Closed form of the matrix assembly -/

/-- The coupling coefficient `a = 1e5 * dt * face_alpha_[i]` of
`setup_matrix`. -/
def aval (s : FvmCell) (dt : ℚ) (i : ℕ) : ℚ := 100000 * dt * s.face_alpha i

theorem setup_matrix_d_fold (s : FvmCell) (dt : ℚ) :
    ∀ (L : List ℕ) (d lv uv : ℕ → ℚ) (j : ℕ),
      ((L.foldl (assemblyStep s dt) (d, lv, uv)).1) j
      = d j + ((L.map (fun i =>
          (if j = i then aval s dt i else 0) +
          (if j = s.p i then aval s dt i else 0))).sum) := by
  intro L
  induction L with
  | nil => intro d lv uv j; simp
  | cons i L ih =>
      intro d lv uv j
      rw [List.foldl_cons, ih]
      simp only [List.map_cons, List.sum_cons, assemblyStep]
      have hupd : (Function.update
            (Function.update d i (d i + (100000 * dt * s.face_alpha i)))
            (s.p i)
            ((Function.update d i (d i + (100000 * dt * s.face_alpha i)))
              (s.p i) + (100000 * dt * s.face_alpha i))) j
          = d j + ((if j = i then aval s dt i else 0) +
              (if j = s.p i then aval s dt i else 0)) := by
        simp only [Function.update_apply, aval]
        by_cases h1 : j = s.p i <;> by_cases h2 : j = i
        · have hpi : s.p i = i := h1.symm.trans h2
          simp only [if_pos h1, if_pos h2, if_pos hpi]
          rw [h2]
          ring
        · have hpi : ¬ (s.p i = i) := fun hh => h2 (h1.trans hh)
          simp only [if_pos h1, if_neg h2, if_neg hpi]
          rw [h1]
          ring
        · simp only [if_neg h1, if_pos h2]
          rw [h2]
          ring
        · simp only [if_neg h1, if_neg h2]
          ring
      rw [hupd]
      ring

theorem setup_matrix_l_fold (s : FvmCell) (dt : ℚ) :
    ∀ (L : List ℕ) (d lv uv : ℕ → ℚ) (j : ℕ),
      ((L.foldl (assemblyStep s dt) (d, lv, uv)).2.1) j
      = if j ∈ L then -(aval s dt j) else lv j := by
  intro L
  induction L with
  | nil => intro d lv uv j; simp
  | cons i L ih =>
      intro d lv uv j
      rw [List.foldl_cons, ih]
      simp only [assemblyStep]
      by_cases hL : j ∈ L
      · rw [if_pos hL, if_pos (List.mem_cons.mpr (Or.inr hL))]
      · rw [if_neg hL]
        by_cases hij : j = i
        · subst hij
          rw [if_pos (List.mem_cons.mpr (Or.inl rfl))]
          simp [Function.update_apply, aval]
        · rw [if_neg (by
            intro hmem
            rcases List.mem_cons.mp hmem with h | h
            · exact hij h
            · exact hL h)]
          simp [Function.update_apply, hij]

theorem setup_matrix_u_fold (s : FvmCell) (dt : ℚ) :
    ∀ (L : List ℕ) (d lv uv : ℕ → ℚ) (j : ℕ),
      ((L.foldl (assemblyStep s dt) (d, lv, uv)).2.2) j
      = if j ∈ L then -(aval s dt j) else uv j := by
  intro L
  induction L with
  | nil => intro d lv uv j; simp
  | cons i L ih =>
      intro d lv uv j
      rw [List.foldl_cons, ih]
      simp only [assemblyStep]
      by_cases hL : j ∈ L
      · rw [if_pos hL, if_pos (List.mem_cons.mpr (Or.inr hL))]
      · rw [if_neg hL]
        by_cases hij : j = i
        · subst hij
          rw [if_pos (List.mem_cons.mpr (Or.inl rfl))]
          simp [Function.update_apply, aval]
        · rw [if_neg (by
            intro hmem
            rcases List.mem_cons.mp hmem with h | h
            · exact hij h
            · exact hL h)]
          simp [Function.update_apply, hij]

theorem sum_map_ite_eq (a : ℕ → ℚ) (j : ℕ) :
    ∀ (L : List ℕ), L.Nodup →
      ((L.map (fun i => if j = i then a i else 0)).sum) =
        (if j ∈ L then a j else 0) := by
  intro L
  induction L with
  | nil => intro _; simp
  | cons i L ih =>
      intro hnd
      rcases List.nodup_cons.mp hnd with ⟨hni, hnd'⟩
      simp only [List.map_cons, List.sum_cons, ih hnd']
      by_cases hij : j = i
      · subst hij
        rw [if_pos rfl, if_neg hni, if_pos (List.mem_cons.mpr (Or.inl rfl))]
        ring
      · rw [if_neg hij]
        by_cases hL : j ∈ L
        · rw [if_pos hL, if_pos (List.mem_cons.mpr (Or.inr hL))]
          ring
        · rw [if_neg hL, if_neg (by
            intro hmem
            rcases List.mem_cons.mp hmem with h | h
            · exact hij h
            · exact hL h)]
          ring

theorem sum_map_ite_filter (a : ℕ → ℚ) (q : ℕ → Prop) [DecidablePred q] :
    ∀ (L : List ℕ),
      ((L.map (fun i => if q i then a i else 0)).sum) =
        ((L.filter (fun i => decide (q i))).map a).sum := by
  intro L
  induction L with
  | nil => simp
  | cons i L ih =>
      simp only [List.map_cons, List.sum_cons, List.filter_cons]
      by_cases hq : q i
      · simp [hq, ih]
      · simp [hq, ih]

theorem mem_range'_one (j len : ℕ) : j ∈ List.range' 1 len ↔ 1 ≤ j ∧ j < 1 + len := by
  constructor
  · intro h
    have := List.mem_range'_1.mp h
    exact this
  · intro h
    exact List.mem_range'_1.mpr h

/-- The fields of `setup_matrix` that the assembly does not write. -/
theorem setup_matrix_unchanged (s : FvmCell) (dt : ℚ) :
    (setup_matrix s dt).n = s.n ∧ (setup_matrix s dt).p = s.p
    ∧ (setup_matrix s dt).voltage = s.voltage
    ∧ (setup_matrix s dt).current = s.current
    ∧ (setup_matrix s dt).cv_areas = s.cv_areas
    ∧ (setup_matrix s dt).cv_capacitance = s.cv_capacitance
    ∧ (setup_matrix s dt).face_alpha = s.face_alpha
    ∧ (setup_matrix s dt).mechs = s.mechs
    ∧ (setup_matrix s dt).stimulii = s.stimulii
    ∧ (setup_matrix s dt).events = s.events
    ∧ (setup_matrix s dt).t = s.t
    ∧ (setup_matrix s dt).synapse_index = s.synapse_index :=
  ⟨rfl, rfl, rfl, rfl, rfl, rfl, rfl, rfl, rfl, rfl, rfl, rfl⟩

theorem setup_matrix_rhs (s : FvmCell) (dt : ℚ) (i : ℕ) (h : i < s.n) :
    (setup_matrix s dt).rhs i =
      s.cv_areas i * (s.voltage i - 10 * dt * s.current i / s.cv_capacitance i) := by
  show (if i < s.n then
      s.cv_areas i * (s.voltage i - 10 * dt / s.cv_capacitance i * s.current i)
    else s.rhs i) = _
  rw [if_pos h, div_mul_eq_mul_div]

theorem setup_matrix_l (s : FvmCell) (dt : ℚ) (i : ℕ) (h1 : 1 ≤ i)
    (h2 : i < s.n) :
    (setup_matrix s dt).l i = -(100000 * dt * s.face_alpha i) := by
  have hrepr : (setup_matrix s dt).l =
      ((List.range' 1 (s.n - 1)).foldl (assemblyStep s dt)
        ((fun i => if i < s.n then s.cv_areas i else s.d i), s.l, s.u)).2.1 :=
    rfl
  rw [hrepr, setup_matrix_l_fold]
  rw [if_pos (by
    rw [mem_range'_one]
    omega)]
  rfl

theorem setup_matrix_u (s : FvmCell) (dt : ℚ) (i : ℕ) (h1 : 1 ≤ i)
    (h2 : i < s.n) :
    (setup_matrix s dt).u i = -(100000 * dt * s.face_alpha i) := by
  have hrepr : (setup_matrix s dt).u =
      ((List.range' 1 (s.n - 1)).foldl (assemblyStep s dt)
        ((fun i => if i < s.n then s.cv_areas i else s.d i), s.l, s.u)).2.2 :=
    rfl
  rw [hrepr, setup_matrix_u_fold]
  rw [if_pos (by
    rw [mem_range'_one]
    omega)]
  rfl

theorem setup_matrix_d (s : FvmCell) (dt : ℚ) (i : ℕ) (h : i < s.n) :
    (setup_matrix s dt).d i =
      s.cv_areas i + (if 1 ≤ i then aval s dt i else 0) +
        (((List.range' 1 (s.n - 1)).filter (fun j => s.p j = i)).map
          (aval s dt)).sum := by
  have hrepr : (setup_matrix s dt).d =
      ((List.range' 1 (s.n - 1)).foldl (assemblyStep s dt)
        ((fun i => if i < s.n then s.cv_areas i else s.d i), s.l, s.u)).1 :=
    rfl
  rw [hrepr, setup_matrix_d_fold]
  simp only [if_pos h]
  have hnd : (List.range' 1 (s.n - 1)).Nodup := by
    apply List.nodup_range'
    norm_num
  have hsplit : ((List.range' 1 (s.n - 1)).map (fun j =>
      (if i = j then aval s dt j else 0) +
      (if i = s.p j then aval s dt j else 0))).sum =
      ((List.range' 1 (s.n - 1)).map (fun j =>
        if i = j then aval s dt j else 0)).sum +
      ((List.range' 1 (s.n - 1)).map (fun j =>
        if i = s.p j then aval s dt j else 0)).sum := by
    rw [← List.sum_map_add]
  rw [hsplit]
  rw [sum_map_ite_eq (aval s dt) i _ hnd]
  have hmem : (i ∈ List.range' 1 (s.n - 1)) ↔ 1 ≤ i := by
    rw [mem_range'_one]
    omega
  have hfirst : (if i ∈ List.range' 1 (s.n - 1) then aval s dt i else 0) =
      (if 1 ≤ i then aval s dt i else 0) := by
    by_cases hone : 1 ≤ i
    · rw [if_pos (hmem.mpr hone), if_pos hone]
    · rw [if_neg (fun hh => hone (hmem.mp hh)), if_neg hone]
  rw [hfirst]
  have hsecond : ((List.range' 1 (s.n - 1)).map (fun j =>
      if i = s.p j then aval s dt j else 0)).sum =
      (((List.range' 1 (s.n - 1)).filter (fun j => s.p j = i)).map
        (aval s dt)).sum := by
    have := sum_map_ite_filter (aval s dt) (fun j => i = s.p j)
      (List.range' 1 (s.n - 1))
    rw [this]
    have hpred : ((List.range' 1 (s.n - 1)).filter
        (fun j => decide (i = s.p j))) =
        ((List.range' 1 (s.n - 1)).filter (fun j => s.p j = i)) := by
      apply List.filter_congr
      intro j _
      simp [eq_comm]
    rw [hpred]
  rw [hsecond]
  ring

/-- C2: for every timestep and state, `setup_matrix(dt)` writes exactly:
`d[i] = A[i]`, then for each `i >= 1` with `a = 1e5*dt*alpha[i]` it adds
`a` to `d[i]`, sets `l[i] = u[i] = -a` and adds `a` to `d[p[i]]`; and
`rhs[i] = A[i] * (V[i] - 10*dt*I[i]/C[i])`; the vectors `V`, `I`, `A`,
`C` and `alpha` are left unchanged. -/
theorem C2_setup_matrix_assembly (s : FvmCell) (dt : ℚ) :
    (∀ i, 1 ≤ i → i < s.n →
        (setup_matrix s dt).l i = -(100000 * dt * s.face_alpha i)
        ∧ (setup_matrix s dt).u i = -(100000 * dt * s.face_alpha i))
    ∧ (∀ i, i < s.n →
        (setup_matrix s dt).d i =
          s.cv_areas i + (if 1 ≤ i then 100000 * dt * s.face_alpha i else 0)
            + (((List.range' 1 (s.n - 1)).filter (fun j => s.p j = i)).map
                (fun j => 100000 * dt * s.face_alpha j)).sum)
    ∧ (∀ i, i < s.n →
        (setup_matrix s dt).rhs i =
          s.cv_areas i *
            (s.voltage i - 10 * dt * s.current i / s.cv_capacitance i))
    ∧ ((setup_matrix s dt).voltage = s.voltage
        ∧ (setup_matrix s dt).current = s.current
        ∧ (setup_matrix s dt).cv_areas = s.cv_areas
        ∧ (setup_matrix s dt).cv_capacitance = s.cv_capacitance
        ∧ (setup_matrix s dt).face_alpha = s.face_alpha) := by
  refine ⟨fun i h1 h2 => ⟨setup_matrix_l s dt i h1 h2,
      setup_matrix_u s dt i h1 h2⟩,
    fun i h => ?_, fun i h => setup_matrix_rhs s dt i h,
    rfl, rfl, rfl, rfl, rfl⟩
  rw [setup_matrix_d s dt i h]
  rfl

/-- A two-compartment cell: areas and capacitances one, uniform voltage
five, no mechanisms, no stimuli, no events. -/
def witCell : FvmCell :=
  { n := 2, p := fun _ => 0, cv_areas := fun _ => 1,
    face_alpha := fun _ => 1, cv_capacitance := fun _ => 1,
    current := fun _ => 0, voltage := fun _ => 5,
    d := fun _ => 0, l := fun _ => 0, u := fun _ => 0, rhs := fun _ => 0,
    mechs := [], synapse_index := 0, stimulii := [], events := [], t := 0 }

/-- Witness for C2: the assembly on the two-compartment cell. -/
theorem C2_setup_matrix_assembly_witness :
    ((setup_matrix witCell 1).l 1 = -(100000 * 1 * witCell.face_alpha 1))
    ∧ ((setup_matrix witCell 1).u 1 = -(100000 * 1 * witCell.face_alpha 1))
    ∧ ((setup_matrix witCell 1).d 0 =
        witCell.cv_areas 0 + (if 1 ≤ 0 then 100000 * 1 * witCell.face_alpha 0 else 0)
          + (((List.range' 1 (witCell.n - 1)).filter
              (fun j => witCell.p j = 0)).map
              (fun j => 100000 * 1 * witCell.face_alpha j)).sum)
    ∧ ((setup_matrix witCell 1).rhs 0 =
        witCell.cv_areas 0 *
          (witCell.voltage 0 - 10 * 1 * witCell.current 0 / witCell.cv_capacitance 0))
    ∧ (setup_matrix witCell 1).voltage = witCell.voltage := by
  have h := C2_setup_matrix_assembly witCell 1
  exact ⟨(h.1 1 (by decide) (by decide)).1,
    (h.1 1 (by decide) (by decide)).2,
    h.2.1 0 (by decide), h.2.2.1 0 (by decide), h.2.2.2.1⟩

/-! ## The order of operations inside `advance` -/

/-- The value of a stimulus amplitude on the success path. -/
def ampVal (st : Stimulus) (t : ℚ) : ℚ :=
  match st.amplitude t with
  | Except.ok v => v
  | Except.error _ => 0

/-- The state selected by a successful run, with a fallback. -/
def okState (e : Except ErrState FvmCell) (dflt : FvmCell) : FvmCell :=
  match e with
  | Except.ok s2 => s2
  | Except.error _ => dflt

theorem mechCurrentLoop_fold (s : FvmCell) (dt : ℚ) :
    ∀ (ms : List Mechanism) (cur : ℕ → ℚ) (done : List Mechanism),
      (ms.foldl
        (fun (acc : (ℕ → ℚ) × List Mechanism) m =>
          let m1 := { m with params := (s.t, dt) }
          (m1.currentFn s.voltage m1.params m1.state acc.1, acc.2 ++ [m1]))
        (cur, done))
      = (ms.foldl (fun I m => m.currentFn s.voltage (s.t, dt) m.state I) cur,
         done ++ ms.map (fun m => { m with params := (s.t, dt) })) := by
  intro ms
  induction ms with
  | nil => intro cur done; simp
  | cons m rest ih =>
      intro cur done
      simp only [List.foldl_cons, List.map_cons]
      rw [ih]
      simp

theorem mechCurrentLoop_current (s : FvmCell) (dt : ℚ) :
    (mechCurrentLoop s dt).current =
      s.mechs.foldl (fun I m => m.currentFn s.voltage (s.t, dt) m.state I)
        s.current := by
  unfold mechCurrentLoop
  rw [mechCurrentLoop_fold]

theorem mechCurrentLoop_mechs (s : FvmCell) (dt : ℚ) :
    (mechCurrentLoop s dt).mechs =
      s.mechs.map (fun m => { m with params := (s.t, dt) }) := by
  unfold mechCurrentLoop
  rw [mechCurrentLoop_fold]
  simp

theorem stimLoopGo_ok (t : ℚ) (A : ℕ → ℚ) :
    ∀ (stims : List (ℕ × Stimulus)) (cur cur2 : ℕ → ℚ),
      stimLoopGo t A stims cur = Except.ok cur2 →
      cur2 = stims.foldl (fun c pr =>
        Function.update c pr.1 (c pr.1 - 100 * ampVal pr.2 t / A pr.1))
        cur := by
  intro stims
  induction stims with
  | nil =>
      intro cur cur2 h
      simp only [stimLoopGo] at h
      cases h
      simp
  | cons pr rest ih =>
      intro cur cur2 h
      simp only [stimLoopGo] at h
      cases hamp : pr.2.amplitude t with
      | error e => rw [hamp] at h; cases h
      | ok v =>
          rw [hamp] at h
          have := ih _ _ h
          rw [this]
          simp only [List.foldl_cons]
          have hval : ampVal pr.2 t = v := by
            unfold ampVal
            rw [hamp]
          rw [hval]

theorem stimLoopE_ok_shape (s2 s3 : FvmCell)
    (h : stimLoopE s2 = Except.ok s3) :
    ∃ c, s3 = { s2 with current := c } := by
  unfold stimLoopE at h
  cases hgo : stimLoopGo s2.t s2.cv_areas s2.stimulii s2.current with
  | error c => rw [hgo] at h; cases h
  | ok c =>
      rw [hgo] at h
      exact ⟨c, (Except.ok.inj h).symm⟩

theorem solveE_ok_shape (s4 s5 : FvmCell)
    (h : solveE s4 = Except.ok s5) :
    ∃ d2 r2, s5 = { s4 with d := d2, rhs := r2 } := by
  unfold solveE at h
  cases hb : solveBwdE s4.p s4.l s4.u (s4.n - 1) (s4.d, s4.rhs) with
  | error dr => rw [hb] at h; cases h
  | ok dr =>
      rw [hb] at h
      dsimp only at h
      by_cases hd : dr.1 0 = 0
      · rw [if_pos hd] at h; cases h
      · rw [if_neg hd] at h
        exact ⟨dr.1, _, (Except.ok.inj h).symm⟩

theorem solveE_ok_rhs (s4 s5 : FvmCell)
    (h : solveE s4 = Except.ok s5) :
    s5.rhs = solveFwd s4.p s4.l s5.d (s4.n - 1)
      (Function.update
        ((solveBwdE s4.p s4.l s4.u (s4.n - 1) (s4.d, s4.rhs)).toOption.getD
          (s4.d, s4.rhs)).2 0
        ((((solveBwdE s4.p s4.l s4.u (s4.n - 1)
            (s4.d, s4.rhs)).toOption.getD (s4.d, s4.rhs)).2 0) /
          ((((solveBwdE s4.p s4.l s4.u (s4.n - 1)
            (s4.d, s4.rhs)).toOption.getD (s4.d, s4.rhs)).1 0)))) := by
  unfold solveE at h
  cases hb : solveBwdE s4.p s4.l s4.u (s4.n - 1) (s4.d, s4.rhs) with
  | error dr => rw [hb] at h; cases h
  | ok dr =>
      rw [hb] at h
      dsimp only at h
      by_cases hd : dr.1 0 = 0
      · rw [if_pos hd] at h; cases h
      · rw [if_neg hd] at h
        have := Except.ok.inj h
        rw [← this]
        simp [Except.toOption]

theorem okState_eq (e : Except ErrState FvmCell) (dflt : FvmCell)
    (h : okB e = true) : e = Except.ok (okState e dflt) := by
  cases e with
  | ok x => rfl
  | error x => cases h

theorem stimLoopE_ok_fields (s2 s3 : FvmCell)
    (h : stimLoopE s2 = Except.ok s3) :
    s3.t = s2.t ∧ s3.n = s2.n ∧ s3.voltage = s2.voltage
    ∧ s3.mechs = s2.mechs ∧ s3.cv_areas = s2.cv_areas
    ∧ s3.events = s2.events ∧ s3.cv_capacitance = s2.cv_capacitance
    ∧ s3.face_alpha = s2.face_alpha ∧ s3.p = s2.p
    ∧ s3.stimulii = s2.stimulii ∧ s3.synapse_index = s2.synapse_index := by
  rcases stimLoopE_ok_shape s2 s3 h with ⟨c, hc⟩
  subst hc
  exact ⟨rfl, rfl, rfl, rfl, rfl, rfl, rfl, rfl, rfl, rfl, rfl⟩

theorem solveE_ok_fields (s4 s5 : FvmCell)
    (h : solveE s4 = Except.ok s5) :
    s5.t = s4.t ∧ s5.n = s4.n ∧ s5.voltage = s4.voltage
    ∧ s5.mechs = s4.mechs ∧ s5.cv_areas = s4.cv_areas
    ∧ s5.events = s4.events ∧ s5.cv_capacitance = s4.cv_capacitance
    ∧ s5.face_alpha = s4.face_alpha ∧ s5.p = s4.p
    ∧ s5.stimulii = s4.stimulii ∧ s5.current = s4.current
    ∧ s5.synapse_index = s4.synapse_index := by
  rcases solveE_ok_shape s4 s5 h with ⟨d2, r2, hc⟩
  subst hc
  exact ⟨rfl, rfl, rfl, rfl, rfl, rfl, rfl, rfl, rfl, rfl, rfl, rfl⟩

/-- C1: on a successful `advance(dt)` the operations happen in exactly
this order with these effects: the current is first zeroed at every CV;
every mechanism, in construction order, stores `(t, dt)` through
`set_params` (with the pre-step time) and then folds its contribution
into the shared current; each stimulus `(cv, amp)` then subtracts
`100 * amp(t) / A[cv]` at its CV; the matrix is assembled from that state
and solved; the voltage is overwritten with the solution; every
mechanism advances its own state reading the new voltage; finally the
time advances by `dt`. -/
theorem C1_advance_order (s : FvmCell) (dt : ℚ) (s3 s5 : FvmCell)
    (hs3 : stimLoopE (mechCurrentLoop (zeroCurrent s) dt) = Except.ok s3)
    (hs5 : solveE (setup_matrix s3 dt) = Except.ok s5) :
    okB (advanceE s dt) = true
    ∧ (okState (advanceE s dt) s).t = s.t + dt
    ∧ (∀ i, (okState (advanceE s dt) s).voltage i =
        if i < s.n then s5.rhs i else s.voltage i)
    ∧ (okState (advanceE s dt) s).current = s3.current
    ∧ (okState (advanceE s dt) s).mechs = s.mechs.map (fun m =>
        { m with params := (s.t, dt),
                 state := (m.stateFn (okState (advanceE s dt) s).voltage
                   (s.t, dt) m.state) })
    ∧ (mechCurrentLoop (zeroCurrent s) dt).current =
        s.mechs.foldl (fun I m => m.currentFn s.voltage (s.t, dt) m.state I)
          (fun i => if i < s.n then 0 else s.current i)
    ∧ s3.current = s.stimulii.foldl (fun c pr =>
        Function.update c pr.1
          (c pr.1 - 100 * ampVal pr.2 s.t / s.cv_areas pr.1))
        ((mechCurrentLoop (zeroCurrent s) dt).current) := by
  have hadv : advanceE s dt = Except.ok
      { mechStateLoop
          { s5 with voltage := fun i => if i < s5.n then s5.rhs i
              else s5.voltage i } with
        t := (mechStateLoop
          { s5 with voltage := fun i => if i < s5.n then s5.rhs i
              else s5.voltage i }).t + dt } := by
    simp only [advanceE]
    rw [hs3]
    dsimp only
    rw [hs5]
  have h3 := stimLoopE_ok_fields _ _ hs3
  have h5 := solveE_ok_fields _ _ hs5
  have h3t : s3.t = s.t := h3.1
  have h3n : s3.n = s.n := h3.2.1
  have h3V : s3.voltage = s.voltage := h3.2.2.1
  have h3m : s3.mechs = (mechCurrentLoop (zeroCurrent s) dt).mechs :=
    h3.2.2.2.1
  have h5t : s5.t = s3.t := h5.1
  have h5n : s5.n = s3.n := h5.2.1
  have h5V : s5.voltage = s3.voltage := h5.2.2.1
  have h5m : s5.mechs = s3.mechs := h5.2.2.2.1
  have h5c : s5.current = s3.current := h5.2.2.2.2.2.2.2.2.2.2.1
  have hok : okB (advanceE s dt) = true := by
    rw [hadv]
    rfl
  have hvolt : (okState (advanceE s dt) s).voltage =
      (fun i => if i < s5.n then s5.rhs i else s5.voltage i) := by
    rw [hadv]
    rfl
  have ht : (okState (advanceE s dt) s).t = s.t + dt := by
    rw [hadv]
    show s5.t + dt = s.t + dt
    rw [h5t, h3t]
  have hcur : (okState (advanceE s dt) s).current = s3.current := by
    rw [hadv]
    show s5.current = s3.current
    exact h5c
  have hmechs : (okState (advanceE s dt) s).mechs =
      s5.mechs.map (fun m => { m with state := (m.stateFn
        (fun i => if i < s5.n then s5.rhs i else s5.voltage i)
        m.params m.state) }) := by
    rw [hadv]
    rfl
  refine ⟨hok, ht, ?_, hcur, ?_, ?_, ?_⟩
  · intro i
    rw [hvolt]
    simp only [h5n, h3n]
    rw [h5V, h3V]
  · rw [hmechs, hvolt, h5m, h3m, mechCurrentLoop_mechs, List.map_map]
    rfl
  · rw [mechCurrentLoop_current]
    rfl
  · have hE := hs3
    unfold stimLoopE at hE
    cases hgo2 : stimLoopGo
        (mechCurrentLoop (zeroCurrent s) dt).t
        (mechCurrentLoop (zeroCurrent s) dt).cv_areas
        (mechCurrentLoop (zeroCurrent s) dt).stimulii
        (mechCurrentLoop (zeroCurrent s) dt).current with
    | error c => rw [hgo2] at hE; cases hE
    | ok c =>
        rw [hgo2] at hE
        have hc3 : s3.current = c := by
          have := Except.ok.inj hE
          rw [← this]
        have hgo3 : stimLoopGo s.t s.cv_areas s.stimulii
            (mechCurrentLoop (zeroCurrent s) dt).current =
            Except.ok s3.current := by
          rw [hc3]
          exact hgo2
        exact stimLoopGo_ok s.t s.cv_areas s.stimulii _ _ hgo3

/-- The state of the two-compartment cell after the current phases of one
unit step. -/
def witS3 : FvmCell :=
  okState (stimLoopE (mechCurrentLoop (zeroCurrent witCell) 1)) witCell

/-- The state of the two-compartment cell after assembly and solve. -/
def witS5 : FvmCell := okState (solveE (setup_matrix witS3 1)) witCell

/-- Witness for C1: one unit step on the two-compartment cell. -/
theorem C1_advance_order_witness :
    (stimLoopE (mechCurrentLoop (zeroCurrent witCell) 1) = Except.ok witS3)
    ∧ (solveE (setup_matrix witS3 1) = Except.ok witS5)
    ∧ okB (advanceE witCell 1) = true
    ∧ (okState (advanceE witCell 1) witCell).t = witCell.t + 1 := by
  have h1 : stimLoopE (mechCurrentLoop (zeroCurrent witCell) 1) =
      Except.ok witS3 := rfl
  have h2 : solveE (setup_matrix witS3 1) = Except.ok witS5 :=
    okState_eq _ witCell (by with_unfolding_all decide)
  have h := C1_advance_order witCell 1 witS3 witS5 h1 h2
  exact ⟨h1, h2, h.1, h.2.1⟩

/-! ## Correctness of the Hines solve on a uniform voltage

With no mechanisms and no stimuli the assembled system has
`rhs[i] = A[i] * v` for a spatially uniform voltage `v`, and the
elimination recovers exactly `v` at every CV. The sweeps of the solve are
verified against the invariant that each reduced row is still satisfied
by the uniform vector, together with a lower bound on the diagonals. -/

/-- Sum of `f` over the indices `c` in `[1, k]` whose parent is `j`. -/
def childSum (f : ℕ → ℚ) (p : ℕ → ℕ) (k : ℕ) (j : ℕ) : ℚ :=
  (((List.range' 1 k).filter (fun c => p c = j)).map f).sum

theorem childSum_zero (f : ℕ → ℚ) (p : ℕ → ℕ) (j : ℕ) :
    childSum f p 0 j = 0 := rfl

theorem range'_one_succ (k : ℕ) :
    List.range' 1 (k + 1) = List.range' 1 k ++ [k + 1] := by
  rw [List.range'_concat]
  have h : 1 + 1 * k = k + 1 := by omega
  rw [h]

theorem childSum_succ (f : ℕ → ℚ) (p : ℕ → ℕ) (k j : ℕ) :
    childSum f p (k + 1) j =
      childSum f p k j + (if p (k + 1) = j then f (k + 1) else 0) := by
  unfold childSum
  rw [range'_one_succ, List.filter_append, List.map_append, List.sum_append]
  simp only [List.filter_cons, List.filter_nil]
  by_cases h : p (k + 1) = j
  · simp [h]
  · simp [h]

theorem childSum_nonneg (f : ℕ → ℚ) (p : ℕ → ℕ) (k j : ℕ)
    (hf : ∀ c, c ∈ List.range' 1 k → 0 ≤ f c) :
    0 ≤ childSum f p k j := by
  unfold childSum
  apply List.sum_nonneg
  intro x hx
  rcases List.mem_map.mp hx with ⟨c, hc, rfl⟩
  exact hf c (List.mem_of_mem_filter hc)

theorem childSum_eq_zero (f : ℕ → ℚ) (p : ℕ → ℕ) (k j : ℕ)
    (h : ∀ c, c ∈ List.range' 1 k → p c ≠ j) :
    childSum f p k j = 0 := by
  unfold childSum
  have : (List.range' 1 k).filter (fun c => p c = j) = [] := by
    rw [List.filter_eq_nil_iff]
    intro c hc
    simp [h c hc]
  rw [this]
  rfl

theorem childSum_congr (f g : ℕ → ℚ) (p : ℕ → ℕ) (k j : ℕ)
    (h : ∀ c, c ∈ List.range' 1 k → f c = g c) :
    childSum f p k j = childSum g p k j := by
  unfold childSum
  apply congrArg
  apply List.map_congr_left
  intro c hc
  exact h c (List.mem_of_mem_filter hc)

theorem childSum_neg (f : ℕ → ℚ) (p : ℕ → ℕ) (k j : ℕ) :
    childSum (fun c => -(f c)) p k j = -(childSum f p k j) := by
  unfold childSum
  induction ((List.range' 1 k).filter (fun c => p c = j)) with
  | nil => simp
  | cons c cs ih =>
      simp only [List.map_cons, List.sum_cons, ih]
      ring

/-- The reverse sweep of the Hines solve, on a system whose rows are
satisfied by the uniform vector `v`, succeeds and leaves every reduced
row `d[j] x[j] + l[j] x[p[j]] = rhs[j]` satisfied by `v`, with the
diagonals bounded below by `A[j] (+ a[j])`. -/
theorem solveBwd_uniform (p : ℕ → ℕ) (l u al A : ℕ → ℚ) (n : ℕ) (v : ℚ)
    (hp : ∀ i, 1 ≤ i → i < n → p i < i)
    (hA : ∀ i, i < n → 0 < A i)
    (hal : ∀ i, 1 ≤ i → i < n → 0 ≤ al i)
    (hl : ∀ i, 1 ≤ i → i < n → l i = -(al i))
    (hu : ∀ i, 1 ≤ i → i < n → u i = -(al i)) :
    ∀ (k : ℕ), k < n → ∀ (d rhs : ℕ → ℚ),
      (∀ j, j < n →
        A j + (if 1 ≤ j then al j else 0) + childSum al p k j ≤ d j) →
      (∀ j, j < n →
        d j * v + (if 1 ≤ j then l j * v else 0) +
          childSum u p k j * v = rhs j) →
      ∃ d2 r2, solveBwdE p l u k (d, rhs) = Except.ok (d2, r2)
        ∧ (∀ j, j < n → A j + (if 1 ≤ j then al j else 0) ≤ d2 j)
        ∧ (∀ j, j < n →
            d2 j * v + (if 1 ≤ j then l j * v else 0) = r2 j) := by
  intro k
  induction k with
  | zero =>
      intro hkn d rhs hpos hrow
      refine ⟨d, rhs, rfl, ?_, ?_⟩
      · intro j hj
        have h1 := hpos j hj
        rw [childSum_zero] at h1
        linarith
      · intro j hj
        have h1 := hrow j hj
        rw [childSum_zero, zero_mul, add_zero] at h1
        exact h1
  | succ k ih =>
      intro hkn d rhs hpos hrow
      have hk1n : k + 1 < n := hkn
      have hk1ge : 1 ≤ k + 1 := by omega
      have hkn2 : k < n := by omega
      have hmemal : ∀ c, c ∈ List.range' 1 (k + 1) → 0 ≤ al c := by
        intro c hc
        have hmc := List.mem_range'_1.mp hc
        exact hal c hmc.1 (by omega)
      have hchild : 0 ≤ childSum al p (k + 1) (k + 1) :=
        childSum_nonneg al p (k + 1) (k + 1) hmemal
      have hposk1 := hpos (k + 1) hk1n
      rw [if_pos hk1ge] at hposk1
      have hAk1 := hA (k + 1) hk1n
      have halk1 := hal (k + 1) hk1ge hk1n
      have hdpos : 0 < d (k + 1) := by linarith
      have hdne : d (k + 1) ≠ 0 := ne_of_gt hdpos
      have hstep : solveBwdE p l u (k + 1) (d, rhs) =
          (if d (k + 1) = 0 then Except.error (d, rhs)
           else solveBwdE p l u k
            (Function.update d (p (k + 1))
              (d (p (k + 1)) - (u (k + 1) / d (k + 1)) * l (k + 1)),
             Function.update rhs (p (k + 1))
              (rhs (p (k + 1)) -
                (u (k + 1) / d (k + 1)) * rhs (k + 1)))) := rfl
      rw [hstep, if_neg hdne]
      have hlk1 : l (k + 1) = -(al (k + 1)) := hl (k + 1) hk1ge hk1n
      have huk1 : u (k + 1) = -(al (k + 1)) := hu (k + 1) hk1ge hk1n
      have hpk1 : p (k + 1) < k + 1 := hp (k + 1) hk1ge hk1n
      have hpk1n : p (k + 1) < n := by omega
      -- the row of the pivot has no unprocessed children
      have hrowk1 := hrow (k + 1) hk1n
      have hcz : childSum u p (k + 1) (k + 1) = 0 := by
        apply childSum_eq_zero
        intro c hc
        have hmc := List.mem_range'_1.mp hc
        have := hp c hmc.1 (by omega)
        omega
      rw [hcz, zero_mul, add_zero, if_pos hk1ge] at hrowk1
      -- the subtracted multiple is at most the coupling coefficient
      have hsub_le : (u (k + 1) / d (k + 1)) * l (k + 1) ≤ al (k + 1) := by
        rw [huk1, hlk1]
        have heq : (-(al (k + 1)) / d (k + 1)) * (-(al (k + 1))) =
            al (k + 1) * al (k + 1) / d (k + 1) := by
          field_simp
        rw [heq]
        rw [div_le_iff₀ hdpos]
        have hle : al (k + 1) ≤ d (k + 1) := by linarith
        calc al (k + 1) * al (k + 1)
            ≤ al (k + 1) * d (k + 1) :=
              mul_le_mul_of_nonneg_left hle halk1
          _ ≤ al (k + 1) * d (k + 1) := le_refl _
      apply ih hkn2
      · -- the diagonal lower bound at stage k
        intro j hj
        by_cases hje : j = p (k + 1)
        · subst hje
          rw [Function.update_same]
          have hold := hpos (p (k + 1)) hj
          have hsucc := childSum_succ al p k (p (k + 1))
          rw [if_pos rfl] at hsucc
          rw [hsucc] at hold
          linarith
        · rw [Function.update_noteq hje]
          have hold := hpos j hj
          have hsucc := childSum_succ al p k j
          rw [if_neg (by
            intro hh
            exact hje hh.symm)] at hsucc
          rw [hsucc] at hold
          linarith
      · -- the reduced rows at stage k
        intro j hj
        by_cases hje : j = p (k + 1)
        · subst hje
          rw [Function.update_same, Function.update_same]
          have hold := hrow (p (k + 1)) hj
          have hsucc := childSum_succ u p k (p (k + 1))
          rw [if_pos rfl] at hsucc
          rw [hsucc] at hold
          have hfd : (u (k + 1) / d (k + 1)) * d (k + 1) = u (k + 1) :=
            div_mul_cancel₀ (u (k + 1)) hdne
          linear_combination hold - (u (k + 1) / d (k + 1)) * hrowk1 + v * hfd
        · rw [Function.update_noteq hje, Function.update_noteq hje]
          have hold := hrow j hj
          have hsucc := childSum_succ u p k j
          rw [if_neg (by
            intro hh
            exact hje hh.symm)] at hsucc
          rw [hsucc] at hold
          linarith

/-- The forward substitution of the Hines solve recovers the uniform
value `v` at every processed index, given the reduced rows and a root
value of `v`. -/
theorem solveFwd_uniform (p : ℕ → ℕ) (l d : ℕ → ℚ) (n : ℕ) (v : ℚ)
    (hp : ∀ i, 1 ≤ i → i < n → p i < i)
    (hd : ∀ j, j < n → d j ≠ 0) :
    ∀ (k : ℕ), k < n → ∀ (r : ℕ → ℚ),
      r 0 = v →
      (∀ j, 1 ≤ j → j < n → d j * v + l j * v = r j) →
      (∀ j, j ≤ k → solveFwd p l d k r j = v)
      ∧ (∀ j, k < j → solveFwd p l d k r j = r j) := by
  intro k
  induction k with
  | zero =>
      intro hkn r hr0 hrow
      constructor
      · intro j hj
        have : j = 0 := by omega
        subst this
        exact hr0
      · intro j _
        rfl
  | succ k ih =>
      intro hkn r hr0 hrow
      have hkn2 : k < n := by omega
      have hk1ge : 1 ≤ k + 1 := by omega
      obtain ⟨ihle, ihgt⟩ := ih hkn2 r hr0 hrow
      have hpk1 : p (k + 1) < k + 1 := hp (k + 1) hk1ge hkn
      have hRk1 : solveFwd p l d k r (k + 1) = r (k + 1) :=
        ihgt (k + 1) (by omega)
      have hRp : solveFwd p l d k r (p (k + 1)) = v :=
        ihle (p (k + 1)) (by omega)
      have hstep : solveFwd p l d (k + 1) r =
          Function.update (solveFwd p l d k r) (k + 1)
            ((solveFwd p l d k r (k + 1) -
              l (k + 1) * solveFwd p l d k r (p (k + 1))) / d (k + 1)) :=
        rfl
      constructor
      · intro j hj
        rw [hstep]
        by_cases hje : j = k + 1
        · subst hje
          rw [Function.update_same, hRk1, hRp]
          have hrj := hrow (k + 1) hk1ge hkn
          have hdj := hd (k + 1) hkn
          field_simp
          linarith
        · rw [Function.update_noteq hje]
          exact ihle j (by omega)
      · intro j hj
        rw [hstep]
        rw [Function.update_noteq (by omega)]
        exact ihgt j (by omega)

/-- The full Hines solve on the assembled passive system with uniform
voltage: it succeeds and overwrites `rhs` with the uniform value at every
CV, touching only `d` and `rhs`. -/
theorem solveE_uniform (s4 : FvmCell) (A al : ℕ → ℚ) (v : ℚ)
    (hn : 1 ≤ s4.n)
    (hp : ∀ i, 1 ≤ i → i < s4.n → s4.p i < i)
    (hA : ∀ i, i < s4.n → 0 < A i)
    (hal : ∀ i, 1 ≤ i → i < s4.n → 0 ≤ al i)
    (hl : ∀ i, 1 ≤ i → i < s4.n → s4.l i = -(al i))
    (hu : ∀ i, 1 ≤ i → i < s4.n → s4.u i = -(al i))
    (hdeq : ∀ j, j < s4.n → s4.d j =
        A j + (if 1 ≤ j then al j else 0) + childSum al s4.p (s4.n - 1) j)
    (hrhs : ∀ j, j < s4.n → s4.rhs j = A j * v) :
    ∃ s5, solveE s4 = Except.ok s5 ∧ (∀ i, i < s4.n → s5.rhs i = v)
      ∧ s5 = { s4 with d := s5.d, rhs := s5.rhs } := by
  have hrange : ∀ c, c ∈ List.range' 1 (s4.n - 1) →
      1 ≤ c ∧ c < s4.n := by
    intro c hc
    have := List.mem_range'_1.mp hc
    omega
  have hn1 : s4.n - 1 < s4.n := by omega
  -- the initial invariants of the reverse sweep
  have hpos0 : ∀ j, j < s4.n →
      A j + (if 1 ≤ j then al j else 0) +
        childSum al s4.p (s4.n - 1) j ≤ s4.d j := by
    intro j hj
    rw [hdeq j hj]
  have hrow0 : ∀ j, j < s4.n →
      s4.d j * v + (if 1 ≤ j then s4.l j * v else 0) +
        childSum (s4.u) s4.p (s4.n - 1) j * v = s4.rhs j := by
    intro j hj
    have hcongr : childSum s4.u s4.p (s4.n - 1) j =
        childSum (fun c => -(al c)) s4.p (s4.n - 1) j := by
      apply childSum_congr
      intro c hc
      exact hu c (hrange c hc).1 (hrange c hc).2
    rw [hcongr, childSum_neg, hdeq j hj, hrhs j hj]
    by_cases h1 : 1 ≤ j
    · rw [if_pos h1, if_pos h1, hl j h1 hj]
      ring
    · rw [if_neg h1, if_neg h1]
      ring
  obtain ⟨d2, r2, hbwd, hpos2, hrow2⟩ :=
    solveBwd_uniform s4.p s4.l s4.u al A s4.n v hp hA hal hl hu
      (s4.n - 1) hn1 s4.d s4.rhs hpos0 hrow0
  have hd2 : ∀ j, j < s4.n → 0 < d2 j := by
    intro j hj
    have := hpos2 j hj
    by_cases h1 : 1 ≤ j
    · rw [if_pos h1] at this
      have := hA j hj
      have := hal j h1 hj
      linarith
    · rw [if_neg h1] at this
      have := hA j hj
      linarith
  have h0n : 0 < s4.n := by omega
  have hd20 : d2 0 ≠ 0 := ne_of_gt (hd2 0 h0n)
  have hr20 : r2 0 = d2 0 * v := by
    have := hrow2 0 h0n
    rw [if_neg (by omega), add_zero] at this
    linarith
  have hsolve : solveE s4 = Except.ok
      { s4 with
        d := d2
        rhs := (solveFwd s4.p s4.l d2 (s4.n - 1)
          (Function.update r2 0 (r2 0 / d2 0))) } := by
    unfold solveE
    rw [hbwd]
    dsimp only
    rw [if_neg hd20]
  set r0 := Function.update r2 0 (r2 0 / d2 0) with hr0def
  have hr00 : r0 0 = v := by
    rw [hr0def, Function.update_same, hr20]
    field_simp
  have hr0rest : ∀ j, 1 ≤ j → r0 j = r2 j := by
    intro j hj
    rw [hr0def, Function.update_noteq (by omega)]
  have hrowf : ∀ j, 1 ≤ j → j < s4.n →
      d2 j * v + s4.l j * v = r0 j := by
    intro j h1 hj
    rw [hr0rest j h1]
    have := hrow2 j hj
    rw [if_pos h1] at this
    exact this
  have hdne : ∀ j, j < s4.n → d2 j ≠ 0 :=
    fun j hj => ne_of_gt (hd2 j hj)
  obtain ⟨hfle, _⟩ := solveFwd_uniform s4.p s4.l d2 s4.n v hp hdne
    (s4.n - 1) hn1 r0 hr00 hrowf
  refine ⟨_, hsolve, ?_, rfl⟩
  intro i hi
  show solveFwd s4.p s4.l d2 (s4.n - 1) r0 i = v
  exact hfle i (by omega)

theorem childSum_mul (f : ℕ → ℚ) (x : ℚ) (p : ℕ → ℕ) (k j : ℕ) :
    childSum (fun c => f c * x) p k j = childSum f p k j * x := by
  unfold childSum
  induction ((List.range' 1 k).filter (fun c => p c = j)) with
  | nil => simp
  | cons c cs ih =>
      simp only [List.map_cons, List.sum_cons, ih]
      ring

/-- Row `i` of the assembled Hines matrix applied to a vector `x`:
`d[i]` at the diagonal, `l[i]` at the parent column, `u[c]` at each child
column. -/
def hinesMatVec (s : FvmCell) (x : ℕ → ℚ) (i : ℕ) : ℚ :=
  s.d i * x i + (if 1 ≤ i ∧ i < s.n then s.l i * x (s.p i) else 0) +
    (((List.range' 1 (s.n - 1)).filter (fun c => s.p c = i)).map
      (fun c => s.u c * x c)).sum

/-- C9: with no mechanisms, no stimuli (and hence a zero current vector)
and a spatially uniform voltage, `advance(dt)` succeeds and leaves the
voltage unchanged, exactly; moreover `rhs[i] = A[i] * V[i]` at assembly
and the uniform voltage satisfies the assembled linear system exactly. -/
theorem C9_passive_voltage_constant (s : FvmCell) (c dt : ℚ)
    (hm : s.mechs = []) (hst : s.stimulii = [])
    (hn : 1 ≤ s.n) (hdt : 0 ≤ dt)
    (hV : ∀ i, i < s.n → s.voltage i = c)
    (hA : ∀ i, i < s.n → 0 < s.cv_areas i)
    (hal : ∀ i, 1 ≤ i → i < s.n → 0 ≤ s.face_alpha i)
    (hp : ∀ i, 1 ≤ i → i < s.n → s.p i < i) :
    okB (advanceE s dt) = true
    ∧ (∀ i, (okState (advanceE s dt) s).voltage i = s.voltage i)
    ∧ (∀ i, i < s.n →
        (setup_matrix (zeroCurrent s) dt).rhs i =
          s.cv_areas i * s.voltage i)
    ∧ (∀ i, i < s.n →
        hinesMatVec (setup_matrix (zeroCurrent s) dt) (fun _ => c) i =
          (setup_matrix (zeroCurrent s) dt).rhs i) := by
  have hmz : (zeroCurrent s).mechs = [] := hm
  have hstz : (zeroCurrent s).stimulii = [] := hst
  have hs2 : mechCurrentLoop (zeroCurrent s) dt = zeroCurrent s := by
    simp only [mechCurrentLoop, hmz, List.foldl_nil]
    have heta : ({ zeroCurrent s with
        current := (zeroCurrent s).current,
        mechs := ([] : List Mechanism) } : FvmCell) =
        { zeroCurrent s with mechs := ([] : List Mechanism) } := rfl
    rw [heta, ← hmz]
  have hs3 : stimLoopE (zeroCurrent s) = Except.ok (zeroCurrent s) := by
    simp only [stimLoopE, hstz, stimLoopGo]
    rw [← hstz]
  -- the rhs of the assembled system is A * V
  have hrhs4 : ∀ i, i < s.n →
      (setup_matrix (zeroCurrent s) dt).rhs i =
        s.cv_areas i * s.voltage i := by
    intro i hi
    have := setup_matrix_rhs (zeroCurrent s) dt i hi
    rw [this]
    have hcz : (zeroCurrent s).current i = 0 := by
      show (if i < s.n then (0 : ℚ) else s.current i) = 0
      rw [if_pos hi]
    show s.cv_areas i * (s.voltage i -
      10 * dt * (zeroCurrent s).current i / s.cv_capacitance i) = _
    rw [hcz]
    rw [mul_zero, zero_div, sub_zero]
  -- the assembled entries, in the form the solver lemmas use
  set s4 := setup_matrix (zeroCurrent s) dt with hs4def
  have h4n : s4.n = s.n := rfl
  have h4p : s4.p = s.p := rfl
  have h4l : ∀ i, 1 ≤ i → i < s.n →
      s4.l i = -(100000 * dt * s.face_alpha i) :=
    fun i h1 h2 => setup_matrix_l (zeroCurrent s) dt i h1 h2
  have h4u : ∀ i, 1 ≤ i → i < s.n →
      s4.u i = -(100000 * dt * s.face_alpha i) :=
    fun i h1 h2 => setup_matrix_u (zeroCurrent s) dt i h1 h2
  have h4d : ∀ i, i < s.n → s4.d i =
      s.cv_areas i + (if 1 ≤ i then 100000 * dt * s.face_alpha i else 0) +
        childSum (fun j => 100000 * dt * s.face_alpha j) s.p (s.n - 1) i :=
    fun i h => setup_matrix_d (zeroCurrent s) dt i h
  have h4rhs : ∀ i, i < s.n → s4.rhs i = s.cv_areas i * c := by
    intro i hi
    rw [hrhs4 i hi, hV i hi]
  have halnn : ∀ i, 1 ≤ i → i < s.n →
      0 ≤ 100000 * dt * s.face_alpha i := by
    intro i h1 h2
    have := hal i h1 h2
    positivity
  obtain ⟨s5, hsolve, hr5, hshape5⟩ := solveE_uniform s4 s.cv_areas
    (fun i => 100000 * dt * s.face_alpha i) c hn hp hA halnn h4l h4u
    h4d h4rhs
  have h5n : s5.n = s.n := by
    conv_lhs => rw [hshape5]
    rfl
  have h5V : s5.voltage = s.voltage := by
    conv_lhs => rw [hshape5]
    rfl
  have hadv : advanceE s dt = Except.ok
      { mechStateLoop
          { s5 with voltage := fun i => if i < s5.n then s5.rhs i
              else s5.voltage i } with
        t := (mechStateLoop
          { s5 with voltage := fun i => if i < s5.n then s5.rhs i
              else s5.voltage i }).t + dt } := by
    simp only [advanceE]
    rw [hs2, hs3]
    dsimp only
    rw [← hs4def, hsolve]
  refine ⟨by rw [hadv]; rfl, ?_, hrhs4, ?_⟩
  · intro i
    rw [hadv]
    show (if i < s5.n then s5.rhs i else s5.voltage i) = s.voltage i
    by_cases hi : i < s.n
    · rw [if_pos (by
        rw [h5n]
        exact hi)]
      rw [hr5 i (by
        rw [h4n]
        exact hi)]
      rw [hV i hi]
    · rw [if_neg (by
        rw [h5n]
        exact hi)]
      rw [h5V]
  · intro i hi
    unfold hinesMatVec
    have hsum : (((List.range' 1 (s4.n - 1)).filter
        (fun cc => s4.p cc = i)).map (fun cc => s4.u cc *
          (fun _ => c) cc)).sum =
        childSum (fun cc => s4.u cc * c) s4.p (s4.n - 1) i := rfl
    rw [hsum]
    have hcongr : childSum (fun cc => s4.u cc * c) s4.p (s4.n - 1) i =
        childSum (fun cc => -(100000 * dt * s.face_alpha cc) * c)
          s4.p (s4.n - 1) i := by
      apply childSum_congr
      intro cc hcc
      have hmc := List.mem_range'_1.mp hcc
      rw [h4n] at hmc
      rw [h4u cc hmc.1 (by omega)]
    rw [hcongr]
    have hneg : childSum (fun cc => -(100000 * dt * s.face_alpha cc) * c)
        s4.p (s4.n - 1) i =
        -(childSum (fun cc => 100000 * dt * s.face_alpha cc) s4.p
          (s4.n - 1) i * c) := by
      have h1 : (fun cc => -(100000 * dt * s.face_alpha cc) * c) =
          (fun cc => -((100000 * dt * s.face_alpha cc) * c)) := by
        funext cc
        ring
      rw [h1]
      rw [show (fun cc => -(100000 * dt * s.face_alpha cc * c)) =
        (fun cc => -((fun dd => 100000 * dt * s.face_alpha dd * c) cc))
        from rfl]
      rw [childSum_neg, childSum_mul]
    rw [hneg]
    rw [h4d i hi, h4rhs i hi]
    have h4p2 : s4.p = s.p := rfl
    rw [h4p2, h4n]
    by_cases h1 : 1 ≤ i
    · rw [if_pos h1, if_pos ⟨h1, hi⟩]
      rw [h4l i h1 hi]
      ring
    · rw [if_neg h1, if_neg (by
        intro hh
        exact h1 hh.1)]
      ring

/-- Witness for C9: one unit step on the passive two-compartment cell
with uniform voltage five leaves the voltage unchanged. -/
theorem C9_passive_voltage_constant_witness :
    okB (advanceE witCell 1) = true
    ∧ (∀ i, (okState (advanceE witCell 1) witCell).voltage i =
        witCell.voltage i) := by
  have h := C9_passive_voltage_constant witCell 5 1 rfl rfl
    (by norm_num [witCell]) (by norm_num)
    (fun i _ => rfl)
    (fun i _ => by norm_num [witCell])
    (fun i h1 h2 => by norm_num [witCell])
    (fun i h1 h2 => by
      show witCell.p i < i
      simp only [witCell]
      omega)
  exact ⟨h.1, h.2.1⟩

/-! ## The event-timing scenario of `advance_to` (C4)

A single synaptic event at t = 3.3 ms, `advance_to(10, 0.5)` from t = 0.
The code takes `tnext = min(tfinal, t + dt)` from the event time onwards,
so after the 0.3 ms sub-step onto the event the stepping continues with
full 0.5 ms sub-steps from 3.3 (the grid stays offset), and the final
sub-step onto `tfinal` has size 0.2 ms. -/

/-- The value of a successful run, with a fallback. -/
def okVal {α : Type _} (e : Except ErrState α) (dflt : α) : α :=
  match e with
  | Except.ok x => x
  | Except.error _ => dflt

theorem okVal_eq {α : Type _} (e : Except ErrState α) (dflt : α)
    (h : okB e = true) : e = Except.ok (okVal e dflt) := by
  cases e with
  | ok x => rfl
  | error x => cases h

/-- The expsyn-style synapse mechanism of the scenario: one target, the
weight folded into the state on `net_receive`. -/
def c4Mech : Mechanism :=
  { params := (0, 0), state := [0], node_index := [0],
    currentFn := fun _ _ _ I => I,
    stateFn := fun _ _ st => st,
    netRecvSize := 1,
    netRecvFn := fun _ w st => st.map (fun x => x + w) }

/-- A one-compartment cell with a single synaptic event at t = 3.3 ms. -/
def c4Cell : FvmCell :=
  { n := 1, p := fun _ => 0, cv_areas := fun _ => 1,
    face_alpha := fun _ => 0, cv_capacitance := fun _ => 1,
    current := fun _ => 0, voltage := fun _ => 0,
    d := fun _ => 0, l := fun _ => 0, u := fun _ => 0, rhs := fun _ => 0,
    mechs := [c4Mech], synapse_index := 0,
    stimulii := [], events := [⟨33 / 10, 0, 1⟩], t := 0 }

/-- The traced run `advance_to(10, 0.5)` of the scenario. -/
def c4Run : Except ErrState (FvmCell × List Substep) :=
  advance_to_traceE c4Cell 10 (1 / 2) 30

/-- The sub-step sizes of the scenario run. -/
def c4Sizes : List ℚ := substepSizes (okVal c4Run (c4Cell, [])).2

/-- Counterexample for C4: the run succeeds, but its eighth sub-step has
size 0.5, not the 0.2 the claim states (the claimed prefix
{0.5, 0.5, 0.5, 0.5, 0.5, 0.5, 0.3, 0.2} is not taken). -/
theorem C4_sub_step_sizes_counterexample :
    okB c4Run = true
    ∧ c4Sizes.take 8 ≠
        [1/2, 1/2, 1/2, 1/2, 1/2, 1/2, 3/10, 1/5]
    ∧ c4Sizes[7]? = some (1/2) := by
  with_unfolding_all decide

/-- C4 as amended: the run takes sub-step sizes
{0.5 x6, 0.3, 0.5 x13, 0.2} - after the event the stepping continues
from t = 3.3 with full 0.5 ms sub-steps and the final sub-step onto
tfinal has size 0.2 - the event is popped in the seventh sub-step, which
ends exactly at t = 3.3, and the run finishes exactly at t = 10. -/
theorem C4_sub_step_sizes_amended :
    okB c4Run = true
    ∧ c4Sizes =
        [1/2, 1/2, 1/2, 1/2, 1/2, 1/2, 3/10]
          ++ List.replicate 13 (1/2) ++ [1/5]
    ∧ ((okVal c4Run (c4Cell, [])).2[6]?).map
        (fun st => (st.t0, st.t1, st.popped)) =
        some (3, 33/10, some ⟨33/10, 0, 1⟩)
    ∧ (okVal c4Run (c4Cell, [])).1.t = 10 := by
  with_unfolding_all decide

/-! ## Event delivery inside `advance_to` (C3) -/

theorem advanceE_ok_fields (sIn sOut : FvmCell) (dt : ℚ)
    (h : advanceE sIn dt = Except.ok sOut) :
    sOut.events = sIn.events ∧ sOut.t = sIn.t + dt := by
  simp only [advanceE] at h
  cases hs3 : stimLoopE (mechCurrentLoop (zeroCurrent sIn) dt) with
  | error e =>
      rw [hs3] at h
      cases h
  | ok s3 =>
      rw [hs3] at h
      dsimp only at h
      cases hs5 : solveE (setup_matrix s3 dt) with
      | error e =>
          rw [hs5] at h
          cases h
      | ok s5 =>
          rw [hs5] at h
          have hout := Except.ok.inj h
          have h3 := stimLoopE_ok_fields _ _ hs3
          have h5 := solveE_ok_fields _ _ hs5
          have h3e : s3.events = sIn.events := h3.2.2.2.2.2.1
          have h5e : s5.events = s3.events := h5.2.2.2.2.2.1
          have h3t : s3.t = sIn.t := h3.1
          have h5t : s5.t = s3.t := h5.1
          constructor
          · rw [← hout]
            show s5.events = sIn.events
            rw [h5e, h3e]
          · rw [← hout]
            show s5.t + dt = sIn.t + dt
            rw [h5t, h3t]

theorem netReceiveE_ok_fields (s1 s2 : FvmCell) (e : Event)
    (h : netReceiveE s1 e = Except.ok s2) :
    s2.events = s1.events ∧ s2.t = s1.t := by
  unfold netReceiveE at h
  cases hm : s1.mechs[s1.synapse_index]? with
  | none =>
      rw [hm] at h
      cases h
  | some m =>
      rw [hm] at h
      dsimp only at h
      by_cases ht : e.target < m.netRecvSize
      · rw [if_pos ht] at h
        have := Except.ok.inj h
        rw [← this]
        exact ⟨rfl, rfl⟩
      · rw [if_neg ht] at h
        cases h

theorem pop_if_before_none (q : List Event) (t : ℚ)
    (h : (pop_if_before q t).1 = none) :
    (pop_if_before q t).2 = q ∧ ∀ f ∈ q, t ≤ f.time ∨ f ∈ q.tail := by
  cases q with
  | nil => exact ⟨rfl, by simp⟩
  | cons e rest =>
      simp only [pop_if_before] at h ⊢
      by_cases he : e.time < t
      · rw [if_pos he] at h
        simp at h
      · rw [if_neg he] at h ⊢
        refine ⟨rfl, ?_⟩
        intro f hf
        rcases List.mem_cons.mp hf with hfe | hfr
        · subst hfe
          exact Or.inl (le_of_not_lt he)
        · exact Or.inr hfr

theorem pop_if_before_some (q : List Event) (t : ℚ) (e : Event)
    (h : (pop_if_before q t).1 = some e) :
    q = e :: (pop_if_before q t).2 ∧ e.time < t := by
  cases q with
  | nil =>
      unfold pop_if_before at h
      cases h
  | cons e0 rest =>
      simp only [pop_if_before] at h ⊢
      by_cases he : e0.time < t
      · rw [if_pos he] at h ⊢
        have he2 : e0 = e := Option.some.inj h
        subst he2
        exact ⟨rfl, he⟩
      · rw [if_neg he] at h
        simp at h

/-- The step part of one `advance_to` iteration, on success: the new time
is the event time when an event was popped and `min(tfinal, t + dt)`
otherwise, the remaining queue is the queue after the pop, and every
remaining event lies at or after the new time (for a time-sorted queue). -/
theorem advance_to_stepE_props (s : FvmCell) (tfinal dt : ℚ)
    (s1 : FvmCell) (pe : Option Event)
    (hsort : List.Pairwise (fun a b => a.time ≤ b.time) s.events)
    (h : advance_to_stepE s tfinal dt = Except.ok (s1, pe)) :
    (∀ e, pe = some e → s1.t = e.time)
    ∧ (pe = none → s1.t = min tfinal (s.t + dt))
    ∧ (∀ f ∈ s1.events, s1.t ≤ f.time)
    ∧ List.Pairwise (fun a b => a.time ≤ b.time) s1.events := by
  simp only [advance_to_stepE] at h
  cases hpop : pop_if_before s.events (min tfinal (s.t + dt)) with
  | mk pe0 q =>
      rw [hpop] at h
      cases pe0 with
      | none =>
          dsimp only at h
          cases hadv : advanceE { s with events := q }
              (min tfinal (s.t + dt) - s.t) with
          | error e2 =>
              rw [hadv] at h
              cases h
          | ok sa =>
              rw [hadv] at h
              dsimp only at h
              have hinj := Except.ok.inj h
              have hfst : ({ sa with t := min tfinal (s.t + dt) } : FvmCell)
                  = s1 := congrArg Prod.fst hinj
              have hpe : pe = none := (congrArg Prod.snd hinj).symm
              have hpopn := pop_if_before_none s.events
                  (min tfinal (s.t + dt)) (by rw [hpop])
              have hq1 : q = s.events := by
                have h2 := hpopn.1
                rw [hpop] at h2
                exact h2
              have hq2 := hpopn.2
              have hsa := advanceE_ok_fields _ _ _ hadv
              have hs1t : s1.t = min tfinal (s.t + dt) := by
                rw [← hfst]
              have hs1e : s1.events = q := by
                rw [← hfst]
                show sa.events = q
                rw [hsa.1]
              refine ⟨?_, fun _ => hs1t, ?_, ?_⟩
              · intro e he
                rw [hpe] at he
                cases he
              · intro f hf
                rw [hs1e, hq1] at hf
                rcases hq2 f hf with hle | htl
                · rw [hs1t]
                  exact hle
                · cases hev : s.events with
                  | nil =>
                      rw [hev] at hf
                      cases hf
                  | cons e0 rest =>
                      rw [hev] at hf hsort
                      have hhead : ∀ g ∈ rest, e0.time ≤ g.time :=
                        (List.pairwise_cons.mp hsort).1
                      have hnone : ¬ (e0.time < min tfinal (s.t + dt)) := by
                        intro hlt
                        have hcontr : (pop_if_before (e0 :: rest)
                            (min tfinal (s.t + dt))).1 = some e0 := by
                          simp only [pop_if_before]
                          rw [if_pos hlt]
                        rw [← hev, hpop] at hcontr
                        cases hcontr
                      have he0 : min tfinal (s.t + dt) ≤ e0.time :=
                        le_of_not_lt hnone
                      rw [hs1t]
                      rcases List.mem_cons.mp hf with hfe | hfr
                      · rw [hfe]
                        exact he0
                      · exact le_trans he0 (hhead f hfr)
              · rw [hs1e, hq1]
                exact hsort
      | some e0 =>
          dsimp only at h
          cases hadv : advanceE { s with events := q }
              (e0.time - s.t) with
          | error e2 =>
              rw [hadv] at h
              cases h
          | ok sa =>
              rw [hadv] at h
              dsimp only at h
              have hinj := Except.ok.inj h
              have hfst : ({ sa with t := e0.time } : FvmCell) = s1 :=
                congrArg Prod.fst hinj
              have hpe : pe = some e0 := (congrArg Prod.snd hinj).symm
              have hpops := pop_if_before_some s.events
                  (min tfinal (s.t + dt)) e0 (by rw [hpop])
              have hqeq : s.events = e0 :: q := by
                have h2 := hpops.1
                rw [hpop] at h2
                exact h2
              have hsa := advanceE_ok_fields _ _ _ hadv
              have hs1t : s1.t = e0.time := by
                rw [← hfst]
              have hs1e : s1.events = q := by
                rw [← hfst]
                show sa.events = q
                rw [hsa.1]
              have hsq : List.Pairwise (fun a b => a.time ≤ b.time)
                  (e0 :: q) := hqeq ▸ hsort
              refine ⟨?_, ?_, ?_, ?_⟩
              · intro e he
                rw [hpe] at he
                have he2 : e0 = e := Option.some.inj he
                rw [← he2]
                exact hs1t
              · intro hne
                rw [hpe] at hne
                cases hne
              · intro f hf
                rw [hs1e] at hf
                rw [hs1t]
                exact (List.pairwise_cons.mp hsq).1 f hf
              · rw [hs1e]
                exact (List.pairwise_cons.mp hsq).2

theorem advance_to_goTraceE_append :
    ∀ (fuel : ℕ) (s : FvmCell) (tfinal dt : ℚ) (tr : List Substep),
      advance_to_goTraceE fuel s tfinal dt tr
      = (advance_to_goTraceE fuel s tfinal dt []).map
          (fun r => (r.1, tr ++ r.2)) := by
  intro fuel
  induction fuel with
  | zero =>
      intro s tfinal dt tr
      simp [advance_to_goTraceE, Except.map]
  | succ fuel ih =>
      intro s tfinal dt tr
      simp only [advance_to_goTraceE]
      cases hstep : advance_to_stepTraceE s tfinal dt with
      | error e => simp [Except.map]
      | ok r =>
          obtain ⟨⟨s1, pe⟩, rec⟩ := r
          dsimp only
          cases pe with
          | none =>
              dsimp only
              by_cases hc : s1.t < tfinal
              · rw [if_pos hc, if_pos hc]
                simp only [List.nil_append]
                rw [ih s1 tfinal dt (tr ++ [rec]), ih s1 tfinal dt [rec]]
                cases hrec : advance_to_goTraceE fuel s1 tfinal dt [] with
                | error e => simp [Except.map]
                | ok r2 => simp [Except.map]
              · rw [if_neg hc, if_neg hc]
                simp [Except.map]
          | some e0 =>
              dsimp only
              cases hnr : netReceiveE s1 e0 with
              | error e2 => simp [Except.map]
              | ok s1b =>
                  dsimp only
                  by_cases hc : s1b.t < tfinal
                  · rw [if_pos hc, if_pos hc]
                    simp only [List.nil_append]
                    rw [ih s1b tfinal dt (tr ++ [rec]), ih s1b tfinal dt [rec]]
                    cases hrec : advance_to_goTraceE fuel s1b tfinal dt [] with
                    | error e3 => simp [Except.map]
                    | ok r2 => simp [Except.map]
                  · rw [if_neg hc, if_neg hc]
                    simp [Except.map]

theorem advance_to_goTraceE_props :
    ∀ (fuel : ℕ) (s : FvmCell) (tfinal dt : ℚ) (s2 : FvmCell)
      (trOut : List Substep),
      List.Pairwise (fun a b => a.time ≤ b.time) s.events →
      advance_to_goTraceE fuel s tfinal dt [] = Except.ok (s2, trOut) →
      (∀ st ∈ trOut,
        (∀ e ∈ st.popped, st.t1 = e.time)
        ∧ (st.popped = none → st.t1 = min tfinal (st.t0 + dt))
        ∧ (∀ f ∈ st.qAfter, st.t1 ≤ f.time))
      ∧ List.Chain' (fun a b => b.t0 = a.t1) trOut
      ∧ (∀ st ∈ trOut.head?, st.t0 = s.t)
      ∧ (tfinal ≤ s2.t ∨ trOut.length = fuel) := by
  intro fuel
  induction fuel with
  | zero =>
      intro s tfinal dt s2 trOut hsort h
      simp only [advance_to_goTraceE] at h
      have hinj := Except.ok.inj h
      have htr : trOut = [] := (congrArg Prod.snd hinj).symm
      subst htr
      exact ⟨by simp, by simp, by simp, Or.inr rfl⟩
  | succ fuel ih =>
      intro s tfinal dt s2 trOut hsort h
      simp only [advance_to_goTraceE, advance_to_stepTraceE] at h
      cases hstep : advance_to_stepE s tfinal dt with
      | error e =>
          rw [hstep] at h
          cases h
      | ok r =>
          obtain ⟨s1, pe⟩ := r
          rw [hstep] at h
          dsimp only at h
          have hprops := advance_to_stepE_props s tfinal dt s1 pe hsort hstep
          have hrecOK :
              (∀ e ∈ pe, s1.t = e.time)
              ∧ (pe = none → s1.t = min tfinal (s.t + dt))
              ∧ (∀ f ∈ s1.events, s1.t ≤ f.time) := by
            refine ⟨?_, hprops.2.1, hprops.2.2.1⟩
            intro e he
            exact hprops.1 e he
          cases pe with
          | none =>
              dsimp only at h
              by_cases hc : s1.t < tfinal
              · rw [if_pos hc] at h
                simp only [List.nil_append] at h
                rw [advance_to_goTraceE_append fuel s1 tfinal dt
                    [⟨s.t, s1.t, none, s1.events⟩]] at h
                cases hrec : advance_to_goTraceE fuel s1 tfinal dt [] with
                | error e2 =>
                    rw [hrec] at h
                    cases h
                | ok r2 =>
                    obtain ⟨s2a, tr2⟩ := r2
                    rw [hrec] at h
                    dsimp only [Except.map] at h
                    have hinj := Except.ok.inj h
                    have hs2 : s2a = s2 := congrArg Prod.fst hinj
                    have htr : ⟨s.t, s1.t, none, s1.events⟩ :: tr2 = trOut :=
                      congrArg Prod.snd hinj
                    have hihres := ih s1 tfinal dt s2a tr2
                      hprops.2.2.2 hrec
                    rw [← htr]
                    refine ⟨?_, ?_, ?_, ?_⟩
                    · intro st hst
                      rcases List.mem_cons.mp hst with hst1 | hst2
                      · rw [hst1]
                        exact hrecOK
                      · exact hihres.1 st hst2
                    · refine List.chain'_cons'.mpr ⟨?_, hihres.2.1⟩
                      intro b hb
                      show b.t0 = s1.t
                      exact hihres.2.2.1 b hb
                    · intro st hst
                      rw [List.head?_cons, Option.mem_def] at hst
                      have hst2 := Option.some.inj hst
                      rw [← hst2]
                    · rw [hs2] at hihres
                      rcases hihres.2.2.2 with hterm | hlen
                      · exact Or.inl hterm
                      · right
                        simp [hlen]
              · rw [if_neg hc] at h
                have hinj := Except.ok.inj h
                have hs2 : s1 = s2 := congrArg Prod.fst hinj
                have htr : [(⟨s.t, s1.t, none, s1.events⟩ : Substep)] = trOut :=
                  congrArg Prod.snd hinj
                rw [← htr]
                refine ⟨?_, ?_, ?_, ?_⟩
                · intro st hst
                  have hst1 : st = ⟨s.t, s1.t, none, s1.events⟩ := by
                    simpa using hst
                  rw [hst1]
                  exact hrecOK
                · simp
                · intro st hst
                  rw [List.head?_cons, Option.mem_def] at hst
                  have hst2 := Option.some.inj hst
                  rw [← hst2]
                · left
                  rw [← hs2]
                  exact le_of_not_lt hc
          | some e0 =>
              dsimp only at h
              cases hnr : netReceiveE s1 e0 with
              | error e2 =>
                  rw [hnr] at h
                  cases h
              | ok s1b =>
                  rw [hnr] at h
                  dsimp only at h
                  have hnrf := netReceiveE_ok_fields s1 s1b e0 hnr
                  by_cases hc : s1b.t < tfinal
                  · rw [if_pos hc] at h
                    simp only [List.nil_append] at h
                    rw [advance_to_goTraceE_append fuel s1b tfinal
                        dt [⟨s.t, s1.t, some e0, s1.events⟩]] at h
                    cases hrec : advance_to_goTraceE fuel s1b tfinal dt [] with
                    | error e3 =>
                        rw [hrec] at h
                        cases h
                    | ok r2 =>
                        obtain ⟨s2a, tr2⟩ := r2
                        rw [hrec] at h
                        dsimp only [Except.map] at h
                        have hinj := Except.ok.inj h
                        have hs2 : s2a = s2 := congrArg Prod.fst hinj
                        have htr : ⟨s.t, s1.t, some e0, s1.events⟩ :: tr2
                            = trOut := congrArg Prod.snd hinj
                        have hsort2 : List.Pairwise
                            (fun a b => a.time ≤ b.time) s1b.events := by
                          rw [hnrf.1]
                          exact hprops.2.2.2
                        have hihres := ih s1b tfinal dt s2a tr2 hsort2 hrec
                        rw [← htr]
                        refine ⟨?_, ?_, ?_, ?_⟩
                        · intro st hst
                          rcases List.mem_cons.mp hst with hst1 | hst2
                          · rw [hst1]
                            exact hrecOK
                          · exact hihres.1 st hst2
                        · refine List.chain'_cons'.mpr ⟨?_, hihres.2.1⟩
                          intro b hb
                          show b.t0 = s1.t
                          exact (hihres.2.2.1 b hb).trans hnrf.2
                        · intro st hst
                          rw [List.head?_cons, Option.mem_def] at hst
                          have hst2 := Option.some.inj hst
                          rw [← hst2]
                        · rw [hs2] at hihres
                          rcases hihres.2.2.2 with hterm | hlen
                          · exact Or.inl hterm
                          · right
                            simp [hlen]
                  · rw [if_neg hc] at h
                    have hinj := Except.ok.inj h
                    have hs2 : s1b = s2 := congrArg Prod.fst hinj
                    have htr : [(⟨s.t, s1.t, some e0, s1.events⟩ : Substep)]
                        = trOut := congrArg Prod.snd hinj
                    rw [← htr]
                    refine ⟨?_, ?_, ?_, ?_⟩
                    · intro st hst
                      have hst1 : st = ⟨s.t, s1.t, some e0, s1.events⟩ := by
                        simpa using hst
                      rw [hst1]
                      exact hrecOK
                    · simp
                    · intro st hst
                      rw [List.head?_cons, Option.mem_def] at hst
                      have hst2 := Option.some.inj hst
                      rw [← hst2]
                    · left
                      rw [← hs2]
                      exact le_of_not_lt hc

/-- C3: on a successful run of `advance_to(tfinal, dt)` started with a
time-sorted event queue and `t < tfinal`, every sub-step behaves as the
loop dictates: a sub-step that popped an event ends exactly at that
event's scheduled time (the event is delivered at a sub-step boundary),
a sub-step that popped nothing ends at `min(tfinal, t + dt)`, no event
still queued after the pop lies before the sub-step's end (so no queued
event ever falls strictly inside a sub-step), consecutive sub-steps
chain (`t` becomes `tnext`), the first sub-step starts at the initial
time, and the run either reached `t >= tfinal` or consumed the whole
iteration bound. -/
theorem C3_advance_to_event_timing (s : FvmCell) (tfinal dt : ℚ)
    (fuel : ℕ) (s2 : FvmCell) (tr : List Substep)
    (hsort : List.Pairwise (fun a b => a.time ≤ b.time) s.events)
    (hlt : s.t < tfinal)
    (hrun : advance_to_traceE s tfinal dt fuel = Except.ok (s2, tr)) :
    (∀ st ∈ tr,
      (∀ e ∈ st.popped, st.t1 = e.time)
      ∧ (st.popped = none → st.t1 = min tfinal (st.t0 + dt))
      ∧ (∀ f ∈ st.qAfter, st.t1 ≤ f.time))
    ∧ List.Chain' (fun a b => b.t0 = a.t1) tr
    ∧ (∀ st ∈ tr.head?, st.t0 = s.t)
    ∧ (tfinal ≤ s2.t ∨ tr.length = fuel) := by
  simp only [advance_to_traceE] at hrun
  rw [if_neg (not_le.mpr hlt)] at hrun
  exact advance_to_goTraceE_props fuel s tfinal dt s2 tr hsort hrun

/-- The one-compartment synapse cell with a single event at t = 0.5,
run to tfinal = 1 with dt = 1: the first sub-step is cut at the event,
the second runs to tfinal. -/
def c3Cell : FvmCell := { c4Cell with events := [⟨1 / 2, 0, 1⟩] }

/-- The traced run `advance_to(1, 1)` of the witness cell. -/
def c3Run : Except ErrState (FvmCell × List Substep) :=
  advance_to_traceE c3Cell 1 1 5

theorem C3_advance_to_event_timing_witness :
    (∀ st ∈ (okVal c3Run (c3Cell, [])).2,
      (∀ e ∈ st.popped, st.t1 = e.time)
      ∧ (st.popped = none → st.t1 = min 1 (st.t0 + 1))
      ∧ (∀ f ∈ st.qAfter, st.t1 ≤ f.time))
    ∧ List.Chain' (fun a b => b.t0 = a.t1) (okVal c3Run (c3Cell, [])).2
    ∧ (∀ st ∈ (okVal c3Run (c3Cell, [])).2.head?, st.t0 = c3Cell.t)
    ∧ (1 ≤ (okVal c3Run (c3Cell, [])).1.t
        ∨ (okVal c3Run (c3Cell, [])).2.length = 5) :=
  C3_advance_to_event_timing c3Cell 1 1 5
    (okVal c3Run (c3Cell, [])).1 (okVal c3Run (c3Cell, [])).2
    (by with_unfolding_all decide)
    (by with_unfolding_all decide)
    (okVal_eq c3Run (c3Cell, []) (by with_unfolding_all decide))

/-! ## Error consistency of `advance_to` (C6) -/

/-- The data C6 constrains: the voltage on the live CVs, the time, and
every mechanism's state vector. -/
def obs (s : FvmCell) : List ℚ × ℚ × List (List ℚ) :=
  ((List.range s.n).map s.voltage, s.t, s.mechs.map (fun m => m.state))

theorem stimLoopE_error_fields (s2 serr : FvmCell) (k : ErrKind)
    (h : stimLoopE s2 = Except.error (k, serr)) :
    serr.voltage = s2.voltage ∧ serr.t = s2.t ∧ serr.mechs = s2.mechs
    ∧ serr.n = s2.n := by
  unfold stimLoopE at h
  cases hg : stimLoopGo s2.t s2.cv_areas s2.stimulii s2.current with
  | error cur =>
      rw [hg] at h
      dsimp only at h
      have hinj := Except.error.inj h
      have hs : ({ s2 with current := cur } : FvmCell) = serr :=
        congrArg Prod.snd hinj
      rw [← hs]
      exact ⟨rfl, rfl, rfl, rfl⟩
  | ok cur =>
      rw [hg] at h
      cases h

theorem solveE_error_fields (s4 serr : FvmCell) (k : ErrKind)
    (h : solveE s4 = Except.error (k, serr)) :
    serr.voltage = s4.voltage ∧ serr.t = s4.t ∧ serr.mechs = s4.mechs
    ∧ serr.n = s4.n := by
  unfold solveE at h
  cases hb : solveBwdE s4.p s4.l s4.u (s4.n - 1) (s4.d, s4.rhs) with
  | error dr =>
      rw [hb] at h
      dsimp only at h
      have hinj := Except.error.inj h
      have hs : ({ s4 with d := dr.1, rhs := dr.2 } : FvmCell) = serr :=
        congrArg Prod.snd hinj
      rw [← hs]
      exact ⟨rfl, rfl, rfl, rfl⟩
  | ok dr =>
      rw [hb] at h
      dsimp only at h
      by_cases hd : dr.1 0 = 0
      · rw [if_pos hd] at h
        have hinj := Except.error.inj h
        have hs : ({ s4 with d := dr.1, rhs := dr.2 } : FvmCell) = serr :=
          congrArg Prod.snd hinj
        rw [← hs]
        exact ⟨rfl, rfl, rfl, rfl⟩
      · rw [if_neg hd] at h
        cases h

theorem map_state_params (L : List Mechanism) (pr : ℚ × ℚ) :
    (L.map (fun m => { m with params := pr })).map (fun m => m.state)
      = L.map (fun m => m.state) := by
  rw [List.map_map]
  rfl

/-- A failing `advance(dt)` leaves the observed data (voltage, time,
mechanism state) exactly as on entry: only the current accumulator, the
matrix storage and the mechanism params have been touched when the
stimulus evaluation or the solve aborts. -/
theorem advanceE_error_obs (sIn serr : FvmCell) (dt : ℚ) (k : ErrKind)
    (h : advanceE sIn dt = Except.error (k, serr)) :
    obs serr = obs sIn := by
  simp only [advanceE] at h
  cases hs3 : stimLoopE (mechCurrentLoop (zeroCurrent sIn) dt) with
  | error e =>
      rw [hs3] at h
      dsimp only at h
      have he : e = (k, serr) := Except.error.inj h
      rw [he] at hs3
      have hf := stimLoopE_error_fields _ _ _ hs3
      have hm2 : (mechCurrentLoop (zeroCurrent sIn) dt).mechs
          = sIn.mechs.map (fun m => { m with params := (sIn.t, dt) }) :=
        mechCurrentLoop_mechs (zeroCurrent sIn) dt
      unfold obs
      rw [hf.1, hf.2.1, hf.2.2.1, hf.2.2.2, hm2, map_state_params]
      rfl
  | ok s3 =>
      rw [hs3] at h
      dsimp only at h
      cases hs5 : solveE (setup_matrix s3 dt) with
      | error e =>
          rw [hs5] at h
          dsimp only at h
          have he : e = (k, serr) := Except.error.inj h
          rw [he] at hs5
          have hf := solveE_error_fields _ _ _ hs5
          have hsu := setup_matrix_unchanged s3 dt
          have h3 := stimLoopE_ok_fields _ _ hs3
          have hm2 : (mechCurrentLoop (zeroCurrent sIn) dt).mechs
              = sIn.mechs.map (fun m => { m with params := (sIn.t, dt) }) :=
            mechCurrentLoop_mechs (zeroCurrent sIn) dt
          have h3m : s3.mechs
              = sIn.mechs.map (fun m => { m with params := (sIn.t, dt) }) := by
            rw [h3.2.2.2.1]
            exact hm2
          have h3v : s3.voltage = sIn.voltage := h3.2.2.1
          have h3t : s3.t = sIn.t := h3.1
          have h3n : s3.n = sIn.n := h3.2.1
          unfold obs
          rw [hf.1, hf.2.1, hf.2.2.1, hf.2.2.2, hsu.2.2.1, hsu.2.2.2.2.2.2.2.1,
            hsu.2.2.2.2.2.2.2.2.2.2.1, hsu.1, h3m, map_state_params, h3v, h3t,
            h3n]
      | ok s5 =>
          rw [hs5] at h
          cases h

/-- A failing `advance_to` sub-step leaves the observed data as on entry
(the queue handed to `advance` differs only in `events`, which `obs`
ignores). -/
theorem advance_to_stepE_error_obs (s serr : FvmCell) (tfinal dt : ℚ)
    (k : ErrKind)
    (h : advance_to_stepE s tfinal dt = Except.error (k, serr)) :
    obs serr = obs s := by
  simp only [advance_to_stepE] at h
  cases hpop : pop_if_before s.events (min tfinal (s.t + dt)) with
  | mk pe0 q =>
      rw [hpop] at h
      cases pe0 with
      | none =>
          dsimp only at h
          cases hadv : advanceE { s with events := q }
              (min tfinal (s.t + dt) - s.t) with
          | error e =>
              rw [hadv] at h
              have he : e = (k, serr) := Except.error.inj h
              rw [he] at hadv
              have hobs := advanceE_error_obs _ _ _ _ hadv
              rw [hobs]
              rfl
          | ok sa =>
              rw [hadv] at h
              cases h
      | some e0 =>
          dsimp only at h
          cases hadv : advanceE { s with events := q } (e0.time - s.t) with
          | error e =>
              rw [hadv] at h
              have he : e = (k, serr) := Except.error.inj h
              rw [he] at hadv
              have hobs := advanceE_error_obs _ _ _ _ hadv
              rw [hobs]
              rfl
          | ok sa =>
              rw [hadv] at h
              cases h

theorem netReceiveE_error_shape (s1 serr : FvmCell) (e : Event)
    (k : ErrKind) (h : netReceiveE s1 e = Except.error (k, serr)) :
    serr = s1 := by
  unfold netReceiveE at h
  cases hm : s1.mechs[s1.synapse_index]? with
  | none =>
      rw [hm] at h
      exact (congrArg Prod.snd (Except.error.inj h)).symm
  | some m =>
      rw [hm] at h
      dsimp only at h
      by_cases ht : e.target < m.netRecvSize
      · rw [if_pos ht] at h
        cases h
      · rw [if_neg ht] at h
        exact (congrArg Prod.snd (Except.error.inj h)).symm

/-- States reachable from a start state by zero or more completed
iterations of the `advance_to` loop body. -/
inductive StepReach (tfinal dt : ℚ) : FvmCell → FvmCell → Prop
| refl (s : FvmCell) : StepReach tfinal dt s s
| step (s s1 s2 : FvmCell) :
    advance_to_bodyE s tfinal dt = Except.ok s1 →
    StepReach tfinal dt s1 s2 →
    StepReach tfinal dt s s2

theorem advance_to_goE_error_obs :
    ∀ (fuel : ℕ) (s : FvmCell) (tfinal dt : ℚ) (k : ErrKind)
      (serr : FvmCell),
      advance_to_goE fuel s tfinal dt = Except.error (k, serr) →
      ∃ sj, StepReach tfinal dt s sj ∧
        (obs serr = obs sj
         ∨ ∃ s1 pe, advance_to_stepE sj tfinal dt = Except.ok (s1, pe)
            ∧ obs serr = obs s1) := by
  intro fuel
  induction fuel with
  | zero =>
      intro s tfinal dt k serr h
      cases h
  | succ fuel ih =>
      intro s tfinal dt k serr h
      simp only [advance_to_goE] at h
      cases hbody : advance_to_bodyE s tfinal dt with
      | error e =>
          rw [hbody] at h
          have he : e = (k, serr) := Except.error.inj h
          rw [he] at hbody
          unfold advance_to_bodyE at hbody
          cases hstep : advance_to_stepE s tfinal dt with
          | error e2 =>
              rw [hstep] at hbody
              have he2 : e2 = (k, serr) := Except.error.inj hbody
              rw [he2] at hstep
              exact ⟨s, StepReach.refl s,
                Or.inl (advance_to_stepE_error_obs s serr tfinal dt k hstep)⟩
          | ok r =>
              obtain ⟨s1, pe⟩ := r
              rw [hstep] at hbody
              cases pe with
              | none =>
                  dsimp only at hbody
                  cases hbody
              | some e0 =>
                  dsimp only at hbody
                  have hserr : serr = s1 :=
                    netReceiveE_error_shape s1 serr e0 k hbody
                  refine ⟨s, StepReach.refl s,
                    Or.inr ⟨s1, some e0, hstep, ?_⟩⟩
                  rw [hserr]
      | ok s1 =>
          rw [hbody] at h
          dsimp only at h
          by_cases hc : s1.t < tfinal
          · rw [if_pos hc] at h
            obtain ⟨sj, hreach, hrest⟩ := ih s1 tfinal dt k serr h
            exact ⟨sj, StepReach.step s s1 sj hbody hreach, hrest⟩
          · rw [if_neg hc] at h
            cases h

/-- C6: when `advance_to(tfinal, dt)` raises a runtime error (stimulus
evaluation failure, a zero pivot in the solve, or an unknown event
target), the error state's voltage, time and mechanism state are
exactly those of a state reached by completed loop iterations -
either a loop boundary, or (for a failing event dispatch) the state
after that iteration's completed `advance`. No partial update of the
voltage, the time or the mechanism state from the failing operation is
observable. -/
theorem C6_error_state_consistency (s : FvmCell) (tfinal dt : ℚ)
    (fuel : ℕ) (k : ErrKind) (serr : FvmCell)
    (hrun : advance_toE s tfinal dt fuel = Except.error (k, serr)) :
    ∃ sj, StepReach tfinal dt s sj ∧
      (obs serr = obs sj
       ∨ ∃ s1 pe, advance_to_stepE sj tfinal dt = Except.ok (s1, pe)
          ∧ obs serr = obs s1) := by
  unfold advance_toE at hrun
  by_cases hle : tfinal ≤ s.t
  · rw [if_pos hle] at hrun
    cases hrun
  · rw [if_neg hle] at hrun
    exact advance_to_goE_error_obs fuel s tfinal dt k serr hrun

/-- A cell whose only stimulus fails to evaluate: the first sub-step's
`advance` aborts inside the stimulus loop. -/
def c6Cell : FvmCell :=
  { c4Cell with
    events := [],
    stimulii := [(0, ⟨fun _ => Except.error ()⟩)] }

/-- The failing run `advance_to(1, 1)` of the error-witness cell. -/
def c6Run : Except ErrState FvmCell := advance_toE c6Cell 1 1 3

/-- The payload of a failed run. -/
def errVal {α : Type _} (e : Except ErrState α) (dflt : ErrState) :
    ErrState :=
  match e with
  | Except.error x => x
  | Except.ok _ => dflt

theorem errVal_eq {α : Type _} (e : Except ErrState α) (dflt : ErrState)
    (h : okB e = false) : e = Except.error (errVal e dflt) := by
  cases e with
  | ok x => cases h
  | error x => rfl

theorem C6_error_state_consistency_witness :
    ∃ sj, StepReach 1 1 c6Cell sj ∧
      (obs (errVal c6Run (ErrKind.stimulusError, c6Cell)).2 = obs sj
       ∨ ∃ s1 pe, advance_to_stepE sj 1 1 = Except.ok (s1, pe)
          ∧ obs (errVal c6Run (ErrKind.stimulusError, c6Cell)).2
              = obs s1) :=
  C6_error_state_consistency c6Cell 1 1 3
    (errVal c6Run (ErrKind.stimulusError, c6Cell)).1
    (errVal c6Run (ErrKind.stimulusError, c6Cell)).2
    (errVal_eq c6Run (ErrKind.stimulusError, c6Cell)
      (by with_unfolding_all decide))

end ArborFvm
